import Mathlib

/-!
Verification of the multi-agent-spec report SDK (the Go sources under sdk/go
together with the current box renderer source) against its natural-language
specification.

The Go code is shallowly embedded: Go strings become Lean `String`, Go slices
become `List`, Go maps become Lean functions updated pointwise (Go map reads
of absent keys yield the zero value, which the function default mirrors), and
`map[string]interface{}` metadata values — never inspected by any code under
verification — are carried as string pairs.  Go's `type Status string` is a
string type with four canonical constants, so `Status` is `String` here and
switch statements become equality chains.  Field names are lower-camel-cased;
function names keep their Go names.
-/

set_option maxHeartbeats 1000000
set_option maxRecDepth 10000

namespace MultiAgentSpec

/-- Status from report.go: `type Status string` with four constants. -/
abbrev Status := String

def StatusGo : Status := "GO"

def StatusWarn : Status := "WARN"

def StatusNoGo : Status := "NO-GO"

def StatusSkip : Status := "SKIP"

/-- Icon from report.go: the UTF-8 icon for a status (Go `switch` on the
four constants with a `"?"` default). -/
def Status.Icon (s : Status) : String :=
  if s = StatusGo then "🟢"
  else if s = StatusWarn then "🟡"
  else if s = StatusNoGo then "🔴"
  else if s = StatusSkip then "⚪"
  else "?"

/-- TaskResult from report.go.  `Metadata map[string]interface{}` is carried
as string pairs; no embedded function inspects it. -/
structure TaskResult where
  id : String
  status : Status
  severity : String
  detail : String
  durationMs : Int
  metadata : List (String × String)
deriving DecidableEq, Inhabited

/-- KVPair from content_block.go. -/
structure KVPair where
  key : String
  value : String
  icon : String
deriving DecidableEq, Inhabited

/-- ListItem from content_block.go. -/
structure ListItem where
  text : String
  icon : String
  status : Status
deriving DecidableEq, Inhabited

/-- EffectiveIcon from content_block.go: explicit icon wins, else derive from
status, else empty. -/
def ListItem.EffectiveIcon (li : ListItem) : String :=
  if li.icon ≠ "" then li.icon
  else if li.status ≠ "" then li.status.Icon
  else ""

/-- ContentBlockType from content_block.go: `type ContentBlockType string`. -/
abbrev ContentBlockType := String

def ContentBlockKVPairs : ContentBlockType := "kv_pairs"

def ContentBlockList : ContentBlockType := "list"

def ContentBlockTable : ContentBlockType := "table"

def ContentBlockText : ContentBlockType := "text"

def ContentBlockMetric : ContentBlockType := "metric"

/-- ContentBlock from content_block.go: one struct holding every variant's
fields, discriminated by `type`. -/
structure ContentBlock where
  type : ContentBlockType
  title : String
  pairs : List KVPair
  items : List ListItem
  headers : List String
  rows : List (List String)
  content : String
  label : String
  value : String
  status : Status
  target : String
deriving DecidableEq, Inhabited

/-- NarrativeSection from narrative.go. -/
structure NarrativeSection where
  problem : String
  analysis : String
  recommendation : String
deriving DecidableEq, Inhabited

/-- TeamSection from report.go. -/
structure TeamSection where
  id : String
  name : String
  agentId : String
  model : String
  dependsOn : List String
  tasks : List TaskResult
  status : Status
  verdict : String
  contentBlocks : List ContentBlock
  narrative : Option NarrativeSection
deriving DecidableEq, Inhabited

/-- Date stands in for Go `time.Time`; the only operation the embedded code
performs on it is `Format "2006-01-02"`. -/
structure Date where
  year : Nat
  month : Nat
  day : Nat
deriving DecidableEq, Inhabited

/-- TeamReport from report.go. `Tags map[string]string` is carried as pairs
with distinct keys (a Go map cannot repeat a key). -/
structure TeamReport where
  schema : String
  title : String
  project : String
  version : String
  target : String
  phase : String
  tags : List (String × String)
  summaryBlocks : List ContentBlock
  teams : List TeamSection
  footerBlocks : List ContentBlock
  summary : String
  conclusion : String
  status : Status
  generatedAt : Date
  generatedBy : String
deriving DecidableEq, Inhabited

/-- EffectiveTitle from report.go. -/
def TeamReport.EffectiveTitle (r : TeamReport) : String :=
  if r.title ≠ "" then r.title else "TEAM STATUS REPORT"

/-- computeStatusFromTasks from report.go: the Go loop sets `hasNoGo`,
`hasWarn` and clears `allSkipped`, then tests `allSkipped` first. -/
def computeStatusFromTasks (tasks : List TaskResult) : Status :=
  let hasNoGo := tasks.any (fun t => t.status == StatusNoGo)
  let hasWarn := tasks.any (fun t => t.status == StatusWarn)
  let allSkipped := tasks.all (fun t => t.status == StatusSkip)
  if allSkipped then StatusSkip
  else if hasNoGo then StatusNoGo
  else if hasWarn then StatusWarn
  else StatusGo

/-- OverallStatus from report.go (TeamSection method). -/
def TeamSection.OverallStatus (t : TeamSection) : Status :=
  computeStatusFromTasks t.tasks

/-- ComputeOverallStatus from report.go: scans team statuses for NO-GO and
WARN only — there is no all-SKIP test at this level. -/
def TeamReport.ComputeOverallStatus (r : TeamReport) : Status :=
  let hasNoGo := r.teams.any (fun t => t.status == StatusNoGo)
  let hasWarn := r.teams.any (fun t => t.status == StatusWarn)
  if hasNoGo then StatusNoGo
  else if hasWarn then StatusWarn
  else StatusGo

/-- IsGo from report.go: true when no team is NO-GO. -/
def TeamReport.IsGo (r : TeamReport) : Bool :=
  r.teams.all (fun t => !(t.status == StatusNoGo))

/-- FinalMessage from report.go. -/
def TeamReport.FinalMessage (r : TeamReport) : String :=
  if r.IsGo then "🚀 TEAM: GO for " ++ r.version ++ " 🚀"
  else "🛑 TEAM: NO-GO for " ++ r.version ++ " 🛑"

/-- Modelled from the spec (§4.1), for comparison with the code:
"NO-GO if any child is NO-GO; else WARN if any child is WARN; else SKIP if
every child is SKIP; else GO". -/
def aggregateSpec (children : List Status) : Status :=
  if children.any (fun s => s == StatusNoGo) then StatusNoGo
  else if children.any (fun s => s == StatusWarn) then StatusWarn
  else if children.all (fun s => s == StatusSkip) then StatusSkip
  else StatusGo

/-- A task carrying only a status, for feeding statuses to the task-level
aggregator. -/
def taskOfStatus (s : Status) : TaskResult :=
  { id := "", status := s, severity := "", detail := "", durationMs := 0,
    metadata := [] }

/-- A team section carrying only a status. -/
def teamOfStatus (s : Status) : TeamSection :=
  { id := "", name := "", agentId := "", model := "", dependsOn := [],
    tasks := [], status := s, verdict := "", contentBlocks := [],
    narrative := none }

/-- An otherwise-empty report with the given teams. -/
def reportOfTeams (ts : List TeamSection) : TeamReport :=
  { schema := "", title := "", project := "", version := "", target := "",
    phase := "", tags := [], summaryBlocks := [], teams := ts,
    footerBlocks := [], summary := "", conclusion := "", status := "",
    generatedAt := ⟨2025, 1, 1⟩, generatedBy := "" }

theorem allSkip_noNoGo (tasks : List TaskResult)
    (h : tasks.all (fun t => t.status == StatusSkip) = true) :
    tasks.any (fun t => t.status == StatusNoGo) = false := by
  simp only [List.all_eq_true] at h
  simp only [List.any_eq_false]
  intro t ht
  have := h t ht
  simp only [beq_iff_eq] at this ⊢
  rw [this]
  decide

theorem allSkip_noWarn (tasks : List TaskResult)
    (h : tasks.all (fun t => t.status == StatusSkip) = true) :
    tasks.any (fun t => t.status == StatusWarn) = false := by
  simp only [List.all_eq_true] at h
  simp only [List.any_eq_false]
  intro t ht
  have := h t ht
  simp only [beq_iff_eq] at this ⊢
  rw [this]
  decide

theorem any_map_status (tasks : List TaskResult) (x : Status) :
    ((tasks.map (fun t => t.status)).any fun s => s == x)
      = tasks.any (fun t => t.status == x) := by
  induction tasks with
  | nil => rfl
  | cons t ts ih => simp [List.any_cons, ih]

theorem all_map_status (tasks : List TaskResult) (x : Status) :
    ((tasks.map (fun t => t.status)).all fun s => s == x)
      = tasks.all (fun t => t.status == x) := by
  induction tasks with
  | nil => rfl
  | cons t ts ih => simp [List.all_cons, ih]

/-- C4: computeStatusFromTasks agrees with the spec's aggregate precedence
(NO-GO, then WARN, then all-SKIP, then GO) on every child list, and the five
concrete equations of the spec hold. -/
theorem c4_aggregate_matches_spec :
    (∀ tasks : List TaskResult,
      computeStatusFromTasks tasks = aggregateSpec (tasks.map (fun t => t.status))) ∧
    computeStatusFromTasks [taskOfStatus StatusGo, taskOfStatus StatusGo] = StatusGo ∧
    computeStatusFromTasks [taskOfStatus StatusGo, taskOfStatus StatusWarn] = StatusWarn ∧
    computeStatusFromTasks [taskOfStatus StatusWarn, taskOfStatus StatusNoGo] = StatusNoGo ∧
    computeStatusFromTasks [taskOfStatus StatusSkip, taskOfStatus StatusSkip] = StatusSkip ∧
    computeStatusFromTasks [taskOfStatus StatusGo, taskOfStatus StatusSkip] = StatusGo := by
  refine ⟨?_, by decide, by decide, by decide, by decide, by decide⟩
  intro tasks
  unfold computeStatusFromTasks aggregateSpec
  rw [any_map_status tasks StatusNoGo, any_map_status tasks StatusWarn,
    all_map_status tasks StatusSkip]
  cases hs : tasks.all (fun t => t.status == StatusSkip) with
  | true =>
      rw [allSkip_noNoGo tasks hs, allSkip_noWarn tasks hs]
      rfl
  | false =>
      cases hn : tasks.any (fun t => t.status == StatusNoGo) with
      | true => rfl
      | false => cases hw : tasks.any (fun t => t.status == StatusWarn) <;> rfl

theorem teams_allSkip_noNoGo (ts : List TeamSection)
    (h : ts.all (fun t => t.status == StatusSkip) = true) :
    ts.any (fun t => t.status == StatusNoGo) = false := by
  simp only [List.all_eq_true] at h
  simp only [List.any_eq_false]
  intro t ht
  have := h t ht
  simp only [beq_iff_eq] at this ⊢
  rw [this]
  decide

theorem teams_allSkip_noWarn (ts : List TeamSection)
    (h : ts.all (fun t => t.status == StatusSkip) = true) :
    ts.any (fun t => t.status == StatusWarn) = false := by
  simp only [List.all_eq_true] at h
  simp only [List.any_eq_false]
  intro t ht
  have := h t ht
  simp only [beq_iff_eq] at this ⊢
  rw [this]
  decide

theorem any_map_teamTask (ts : List TeamSection) (x : Status) :
    ((ts.map (fun t => taskOfStatus t.status)).any fun tk => tk.status == x)
      = ts.any (fun t => t.status == x) := by
  induction ts with
  | nil => rfl
  | cons t l ih =>
      simp only [List.map_cons, List.any_cons]
      rw [ih]
      rfl

theorem all_map_teamTask (ts : List TeamSection) (x : Status) :
    ((ts.map (fun t => taskOfStatus t.status)).all fun tk => tk.status == x)
      = ts.all (fun t => t.status == x) := by
  induction ts with
  | nil => rfl
  | cons t l ih =>
      simp only [List.map_cons, List.all_cons]
      rw [ih]
      rfl

/-- C2 counterexample: a report whose single team has status SKIP gets overall
status GO from ComputeOverallStatus, not SKIP as the claim states — the
report-level rollup has no all-SKIP case. -/
theorem c2_counterexample :
    (reportOfTeams [teamOfStatus StatusSkip]).ComputeOverallStatus = StatusGo ∧
    (reportOfTeams [teamOfStatus StatusSkip]).ComputeOverallStatus ≠ StatusSkip := by
  constructor
  · rfl
  · decide

/-- C2 amended: ComputeOverallStatus applies the NO-GO, then WARN, then GO
precedence over team statuses but, unlike the task-to-section rollup, never
collapses an all-SKIP team list to SKIP: whenever some team is not SKIP the
two aggregators agree, and on an all-SKIP team list the report-level rollup
returns GO while the task-level rollup returns SKIP. -/
theorem c2_overall_rollup (r : TeamReport) :
    (r.teams.all (fun t => t.status == StatusSkip) = false →
      r.ComputeOverallStatus
        = computeStatusFromTasks (r.teams.map (fun t => taskOfStatus t.status))) ∧
    (r.teams.all (fun t => t.status == StatusSkip) = true →
      r.ComputeOverallStatus = StatusGo ∧
      computeStatusFromTasks (r.teams.map (fun t => taskOfStatus t.status))
        = StatusSkip) := by
  constructor
  · intro hs
    unfold TeamReport.ComputeOverallStatus computeStatusFromTasks
    rw [any_map_teamTask r.teams StatusNoGo, any_map_teamTask r.teams StatusWarn,
      all_map_teamTask r.teams StatusSkip, hs]
    cases hn : r.teams.any (fun t => t.status == StatusNoGo) with
    | true => rfl
    | false => cases hw : r.teams.any (fun t => t.status == StatusWarn) <;> rfl
  · intro hs
    constructor
    · unfold TeamReport.ComputeOverallStatus
      rw [teams_allSkip_noNoGo r.teams hs, teams_allSkip_noWarn r.teams hs]
      rfl
    · unfold computeStatusFromTasks
      rw [all_map_teamTask r.teams StatusSkip, hs]
      rfl

/-- C2 witness: the amended theorem applied to a concrete all-SKIP report. -/
theorem c2_overall_rollup_witness :
    (reportOfTeams [teamOfStatus StatusSkip]).ComputeOverallStatus = StatusGo ∧
    computeStatusFromTasks
      ((reportOfTeams [teamOfStatus StatusSkip]).teams.map
        (fun t => taskOfStatus t.status)) = StatusSkip :=
  (c2_overall_rollup (reportOfTeams [teamOfStatus StatusSkip])).2 (by decide)

/-- C9: aggregation of an empty child list is asymmetric across the two
levels — computeStatusFromTasks of an empty task list is SKIP, while a report
with zero teams has overall status GO and IsGo true. -/
theorem c9_empty_aggregation_asymmetry :
    computeStatusFromTasks [] = StatusSkip ∧
    (∀ r : TeamReport, r.teams = [] →
      r.ComputeOverallStatus = StatusGo ∧ r.IsGo = true) := by
  refine ⟨rfl, ?_⟩
  intro r h
  constructor
  · unfold TeamReport.ComputeOverallStatus
    rw [h]
    rfl
  · unfold TeamReport.IsGo
    rw [h]
    rfl

/-- C9 witness: the empty-teams half applied to a concrete empty report. -/
theorem c9_empty_aggregation_witness :
    computeStatusFromTasks [] = StatusSkip ∧
    ((reportOfTeams []).ComputeOverallStatus = StatusGo ∧
      (reportOfTeams []).IsGo = true) :=
  ⟨c9_empty_aggregation_asymmetry.1,
    c9_empty_aggregation_asymmetry.2 (reportOfTeams []) rfl⟩

/-- Lexicographic order on codepoint sequences.  Go compares strings
byte-lexicographically; UTF-8 encoding preserves codepoint order, so byte
order and codepoint order agree and this is the comparison `s[j] < s[i]`
performs in sortStrings. -/
def lexLt : List Char → List Char → Bool
  | [], [] => false
  | [], _ :: _ => true
  | _ :: _, [] => false
  | a :: as, b :: bs =>
      if a.toNat < b.toNat then true
      else if b.toNat < a.toNat then false
      else lexLt as bs

/-- Go string comparison `a < b`. -/
def strLt (a b : String) : Bool :=
  lexLt a.data b.data

/-- Inner loop of sortStrings from report.go.  For a fixed outer index the Go
loop keeps `s[i]` as the running minimum, swapping the previous holder into
the scanned slot whenever `s[j] < s[i]`; here `cur` is that running value and
on a swap the old `cur` takes the scanned position. -/
def selectPass (cur : String) (rest : List String) : String × List String :=
  match rest with
  | [] => (cur, [])
  | x :: xs =>
      if strLt x cur then
        let p := selectPass x xs
        (p.1, cur :: p.2)
      else
        let p := selectPass cur xs
        (p.1, x :: p.2)

theorem selectPass_length (cur : String) (rest : List String) :
    (selectPass cur rest).2.length = rest.length := by
  induction rest generalizing cur with
  | nil => rfl
  | cons x xs ih =>
      unfold selectPass
      cases h : strLt x cur <;> simp [h, ih]

/-- Outer loop of sortStrings, structurally recursive on a length bound so
that it evaluates by kernel reduction. -/
def sortStringsGo : Nat → List String → List String
  | 0, _ => []
  | _ + 1, [] => []
  | n + 1, x :: xs =>
      let p := selectPass x xs
      p.1 :: sortStringsGo n p.2

/-- sortStrings from report.go: in-place selection sort by repeated swaps.
Go compares strings byte-lexicographically, which for UTF-8 coincides with
the codepoint order Lean's String order uses. -/
def sortStrings (s : List String) : List String :=
  sortStringsGo s.length s

/-- validDeps: the dependency ids of a team that exist among the input ids —
edges to nonexistent ids are ignored everywhere in SortByDAG. -/
def validDeps (present : String → Bool) (t : TeamSection) : List String :=
  t.dependsOn.filter present

/-- Pointwise update of a Go map modelled as a function. -/
def update {α : Type} (m : String → α) (k : String) (v : α) : String → α :=
  fun x => if x = k then v else m x

/-- idToTeam map from SortByDAG: built in input order, a later team with the
same id overwriting an earlier one (Go map assignment). -/
def idToTeam (teams : List TeamSection) : String → Option TeamSection :=
  teams.foldl (fun m t => update m t.id (some t)) (fun _ => none)

/-- presentId: whether an id occurs among the input teams (the Go code tests
`idToTeam[dep]` existence). -/
def presentId (teams : List TeamSection) (dep : String) : Bool :=
  (idToTeam teams dep).isSome

/-- in-degree map from SortByDAG: every id starts at 0 and each dependency
edge whose target exists increments the dependent team's entry. -/
def buildInDegree (teams : List TeamSection) : String → Int :=
  teams.foldl
    (fun m t =>
      t.dependsOn.foldl
        (fun m2 dep =>
          if presentId teams dep then update m2 t.id (m2 t.id + 1) else m2)
        m)
    (fun _ => 0)

/-- downstream adjacency map from SortByDAG: for each existing dependency
edge, the dependent's id is appended to the dependency's list. -/
def buildDownstream (teams : List TeamSection) : String → List String :=
  teams.foldl
    (fun m t =>
      t.dependsOn.foldl
        (fun m2 dep =>
          if presentId teams dep then update m2 dep (m2 dep ++ [t.id]) else m2)
        m)
    (fun _ => [])

/-- One processed id's inner loop in SortByDAG: walk its downstream list,
decrement each dependent's in-degree, and collect ids that reach zero. -/
def collectReady (ds : List String) (inDeg : String → Int) :
    (String → Int) × List String :=
  ds.foldl
    (fun acc downID =>
      let v := acc.1 downID - 1
      (update acc.1 downID v, if v = 0 then acc.2 ++ [downID] else acc.2))
    (inDeg, [])

/-- Result state of the Kahn main loop. -/
structure KahnResult where
  sorted : List TeamSection
  processed : List String
  queue : List String
  inDeg : String → Int

/-- Kahn main loop of SortByDAG.  The Go loop runs until the queue empties;
each iteration consumes one entry and entries are enqueued only when an id is
first processed (at most its downstream list), so the fuel passed by
sortByDAGTeams always outlasts the queue (kahnLoop_drains).  The `none`
branch of the id lookup is unreachable from sortByDAGTeams, where every
queued id is an input id. -/
def kahnLoop (idMap : String → Option TeamSection)
    (downstream : String → List String) :
    Nat → List String → (String → Int) → List String → List TeamSection →
    KahnResult
  | 0, queue, inDeg, processed, sorted => ⟨sorted, processed, queue, inDeg⟩
  | _ + 1, [], inDeg, processed, sorted => ⟨sorted, processed, [], inDeg⟩
  | fuel + 1, id :: rest, inDeg, processed, sorted =>
      if id ∈ processed then
        kahnLoop idMap downstream fuel rest inDeg processed sorted
      else
        let sorted2 := sorted ++ ((idMap id).map (fun t => [t])).getD []
        let step := collectReady (downstream id) inDeg
        kahnLoop idMap downstream fuel (rest ++ sortStrings step.2) step.1
          (processed ++ [id]) sorted2

/-- Total number of existing dependency edges, the enqueue budget of the
loop. -/
def totalEdges (teams : List TeamSection) : Nat :=
  (teams.map (fun t => (validDeps (presentId teams) t).length)).sum

/-- SortByDAG from report.go as a function on the team slice: initial queue
of zero-in-degree ids in input order, sorted; Kahn loop; then every
unprocessed team appended in original input order. -/
def sortByDAGTeams (teams : List TeamSection) : List TeamSection :=
  if teams.length ≤ 1 then teams
  else
    let inDeg0 := buildInDegree teams
    let queue0 :=
      sortStrings ((teams.filter (fun t => inDeg0 t.id = 0)).map (fun t => t.id))
    let res := kahnLoop (idToTeam teams) (buildDownstream teams)
      (queue0.length + totalEdges teams + 1) queue0 inDeg0 [] []
    res.sorted ++ teams.filter (fun t => !(decide (t.id ∈ res.processed)))

/-- SortByDAG from report.go: permutes the Teams slice in place; every other
report field is untouched. -/
def TeamReport.SortByDAG (r : TeamReport) : TeamReport :=
  { r with teams := sortByDAGTeams r.teams }

/-- A minimal team section with an id and dependencies, for concrete runs. -/
def mkTeam (i : String) (deps : List String) : TeamSection :=
  { id := i, name := "team " ++ i, agentId := "", model := "", dependsOn := deps,
    tasks := [], status := StatusGo, verdict := "", contentBlocks := [],
    narrative := none }

example :
    sortByDAGTeams [mkTeam "release" ["qa"], mkTeam "qa" ["pm"], mkTeam "pm" []]
      = [mkTeam "pm" [], mkTeam "qa" ["pm"], mkTeam "release" ["qa"]] := by
  decide

example :
    sortByDAGTeams [mkTeam "b" [], mkTeam "z" [], mkTeam "a" ["b"]]
      = [mkTeam "b" [], mkTeam "z" [], mkTeam "a" ["b"]] := by
  decide

/-! ### Box renderer (current renderer source: boxWidth 78, task severity) -/

/-- boxWidth from the box renderer: the inner width between the border
glyphs. -/
def boxWidth : Nat := 78

/-- Per-codepoint column count of visualLength: the two recognized emoji
ranges count as two columns, everything else as one. -/
def visualCharLen (c : Char) : Nat :=
  if 0x1F300 ≤ c.toNat ∧ c.toNat ≤ 0x1FAFF then 2
  else if 0x2600 ≤ c.toNat ∧ c.toNat ≤ 0x27BF then 2
  else 1

/-- visualLength from the box renderer. -/
def visualLength (s : String) : Nat :=
  (s.data.map visualCharLen).sum

/-- strings.Repeat. -/
def strRepeat (s : String) (n : Nat) : String :=
  ⟨(List.replicate n s.data).flatten⟩

/-- UTF-8 byte count of one codepoint. -/
def charUtf8Size (c : Char) : Nat :=
  if c.toNat < 0x80 then 1
  else if c.toNat < 0x800 then 2
  else if c.toNat < 0x10000 then 3
  else 4

/-- Go `len(s)`: the UTF-8 byte length of a string. -/
def byteLen (s : String) : Nat :=
  (s.data.map charUtf8Size).sum

/-- Go byte slicing `s[:n]` restricted to codepoint boundaries: the longest
codepoint prefix of total UTF-8 size at most `n`.  Go itself may split a
multibyte codepoint, producing an invalid fragment no `String` represents;
the embedded truncations agree with Go whenever the cut lands on a codepoint
boundary, in particular on ASCII text. -/
def takeBytes : Nat → List Char → List Char
  | _, [] => []
  | n, c :: cs =>
      if charUtf8Size c ≤ n then c :: takeBytes (n - charUtf8Size c) cs else []

/-- Go `fmt` left-justified padding `%-*s`: fmt counts runes, not bytes. -/
def padRight (s : String) (w : Nat) : String :=
  s ++ strRepeat " " (w - s.length)

/-- header from the box renderer. -/
def header : String := "╔" ++ strRepeat "═" boxWidth ++ "╗"

/-- separator from the box renderer. -/
def separator : String := "╠" ++ strRepeat "═" boxWidth ++ "╣"

/-- footer from the box renderer. -/
def footer : String := "╚" ++ strRepeat "═" boxWidth ++ "╝"

/-- centerLine from the box renderer (the Nat subtraction is already the
`max(0, ...)` the Go code writes). -/
def centerLine (text : String) : String :=
  let visualLen := visualLength text
  let padding := boxWidth - visualLen
  let left := padding / 2
  let right := padding - left
  "║" ++ strRepeat " " left ++ text ++ strRepeat " " right ++ "║"

/-- paddedLine from the box renderer. -/
def paddedLine (text : String) : String :=
  let visualLen := visualLength text
  let padding := boxWidth - visualLen - 1
  "║ " ++ text ++ strRepeat " " padding ++ "║"

/-- teamHeader from the box renderer. -/
def teamHeader (team : TeamSection) : String :=
  let icon := team.status.Icon
  let text :=
    if team.verdict ≠ "" then
      icon ++ " " ++ team.name ++ " — " ++ team.status ++ " — " ++ team.verdict
    else
      icon ++ " " ++ team.name ++ " — " ++ team.status
  paddedLine text

/-- taskLine from the box renderer: id truncated past 24 bytes, status word
with optional bracketed severity padded to 15 columns, detail truncated to
`boxWidth - 45` bytes. -/
def taskLine (task : TaskResult) : String :=
  let id := if byteLen task.id > 24 then ⟨takeBytes 21 task.id.data⟩ ++ "..." else task.id
  let icon := task.status.Icon
  let statusText :=
    if task.severity ≠ "" then task.status ++ " [" ++ task.severity ++ "]"
    else task.status
  let maxDetail := boxWidth - 45
  let detail :=
    if byteLen task.detail > maxDetail then
      ⟨takeBytes (maxDetail - 3) task.detail.data⟩ ++ "..."
    else task.detail
  let line := "  " ++ padRight id 24 ++ " " ++ icon ++ " " ++ padRight statusText 15
    ++ " " ++ detail
  paddedLine line

/-- finalMessage from the box renderer. -/
def finalMessage (r : TeamReport) : String :=
  centerLine r.FinalMessage

/-- Go map read `tags[k]`. -/
def lookupTag (tags : List (String × String)) (k : String) : String :=
  ((tags.find? (fun p => p.1 == k)).map Prod.snd).getD ""

/-- renderTags from the box renderer: one padded line per key, keys sorted. -/
def renderTags (tags : List (String × String)) : List String :=
  (sortStrings (tags.map Prod.fst)).map
    (fun k => paddedLine ("  " ++ k ++ ": " ++ lookupTag tags k))

/-- renderKVPairs from the box renderer. -/
def renderKVPairs (pairs : List KVPair) : List String :=
  pairs.map (fun pair =>
    paddedLine
      (if pair.icon ≠ "" then pair.icon ++ " " ++ pair.key ++ ": " ++ pair.value
       else pair.key ++ ": " ++ pair.value))

/-- renderList from the box renderer. -/
def renderList (items : List ListItem) : List String :=
  items.map (fun item =>
    let icon := item.EffectiveIcon
    paddedLine (if icon ≠ "" then icon ++ " " ++ item.text else "  " ++ item.text))

/-- Go unicode.IsSpace on the codepoints strings.Fields can meet. -/
def goIsSpace (c : Char) : Bool :=
  c = ' ' || c = '\t' || c = '\n' || c.toNat = 0xB || c.toNat = 0xC || c = '\r'
    || c.toNat = 0x85 || c.toNat = 0xA0

/-- strings.Fields: maximal runs of non-space codepoints. -/
def goFieldsAux : List Char → List Char → List String
  | [], cur => if cur.isEmpty then [] else [String.mk cur.reverse]
  | c :: cs, cur =>
      if goIsSpace c then
        if cur.isEmpty then goFieldsAux cs []
        else String.mk cur.reverse :: goFieldsAux cs []
      else goFieldsAux cs (c :: cur)

/-- strings.Fields over a string. -/
def goFields (s : String) : List String :=
  goFieldsAux s.data []

/-- The loop of wrapText: greedy fill, flushing the current line when the
next word does not fit (widths in Go bytes). -/
def wrapLoop (maxWidth : Nat) (lines : List String) (currentLine : String) :
    List String → List String
  | [] => if currentLine ≠ "" then lines ++ [paddedLine currentLine] else lines
  | word :: ws =>
      if currentLine = "" then wrapLoop maxWidth lines word ws
      else if byteLen currentLine + 1 + byteLen word ≤ maxWidth then
        wrapLoop maxWidth lines (currentLine ++ " " ++ word) ws
      else wrapLoop maxWidth (lines ++ [paddedLine currentLine]) word ws

/-- wrapText from the box renderer. -/
def wrapText (content : String) (maxWidth : Nat) : List String :=
  let words := goFields content
  if words = [] then [] else wrapLoop maxWidth [] "" words

/-- Column-width maximisation of renderTable: a longer cell (in Go bytes)
widens its column; cells beyond the header count are ignored. -/
def updRow : List Nat → List String → List Nat
  | ws, [] => ws
  | [], _ => []
  | w :: ws, c :: cs => (if byteLen c > w then byteLen c else w) :: updRow ws cs

/-- One rendered table row: each of the first `headers.length` cells (missing
trailing cells read as empty) padded to its column width. -/
def padRow (row : List String) (n : Nat) : List String :=
  (List.range n).map (fun i => (row.get? i).getD "")

/-- renderTable from the box renderer. -/
def renderTable (headers : List String) (rows : List (List String)) :
    List String :=
  let colWidths := rows.foldl updRow (headers.map byteLen)
  let headerLine :=
    paddedLine (String.intercalate " │ " (List.zipWith padRight headers colWidths))
  let sepLine :=
    paddedLine (String.intercalate "─┼─" (colWidths.map (fun w => strRepeat "─" w)))
  let rowLines := rows.map (fun row =>
    paddedLine (String.intercalate " │ "
      (List.zipWith padRight (padRow row headers.length) colWidths)))
  headerLine :: sepLine :: rowLines

/-- renderMetric from the box renderer. -/
def renderMetric (label value : String) (status : Status) (target : String) :
    String :=
  let icon := status.Icon
  if target ≠ "" then
    paddedLine (icon ++ " " ++ label ++ ": " ++ value ++ " (target: " ++ target ++ ")")
  else
    paddedLine (icon ++ " " ++ label ++ ": " ++ value)

/-- renderBlock from the box renderer, as the `lines` slice the Go code
joins with newlines. -/
def renderBlock (block : ContentBlock) : List String :=
  (if block.title ≠ "" then [paddedLine block.title] else [])
  ++ (if block.type = ContentBlockKVPairs then renderKVPairs block.pairs
      else if block.type = ContentBlockList then renderList block.items
      else if block.type = ContentBlockText then wrapText block.content (boxWidth - 2)
      else if block.type = ContentBlockTable then renderTable block.headers block.rows
      else if block.type = ContentBlockMetric then
        [renderMetric block.label block.value block.status block.target]
      else [])

/-- A joined part seen as physical lines: a part that produced no lines
still occupies one empty line once the joins are split back. -/
def linesOfPart (ls : List String) : List String :=
  if ls = [] then [""] else ls

/-- renderBlocks from the box renderer, as physical output lines: the Go
code joins each block's lines with newlines and the template emits the join
between newlines. -/
def renderBlocks (bs : List ContentBlock) : List String :=
  if bs = [] then [""] else (bs.map (fun b => linesOfPart (renderBlock b))).flatten

/-- The box template of the renderer, expanded to its physical output lines
(trim markers resolved; the template ends the last line with a newline). -/
def boxLinesOf (r : TeamReport) : List String :=
  [header, centerLine r.EffectiveTitle, separator]
  ++ (if r.summaryBlocks ≠ [] then renderBlocks r.summaryBlocks ++ [separator]
      else
        [paddedLine ("Project: " ++ r.project), paddedLine ("Target:  " ++ r.target)]
        ++ (if r.tags ≠ [] then [paddedLine "Tags:"] ++ renderTags r.tags else [])
        ++ [separator])
  ++ [paddedLine r.phase]
  ++ (r.teams.map (fun t =>
        [separator, teamHeader t] ++ t.tasks.map taskLine
        ++ (if t.contentBlocks ≠ [] then renderBlocks t.contentBlocks else []))).flatten
  ++ (if r.footerBlocks ≠ [] then [separator] ++ renderBlocks r.footerBlocks else [])
  ++ [separator, finalMessage r, footer]

/-- Render from the box renderer: SortByDAG first, then the box template. -/
def renderBoxLines (r : TeamReport) : List String :=
  boxLinesOf r.SortByDAG

theorem visualLength_append (a b : String) :
    visualLength (a ++ b) = visualLength a + visualLength b := by
  show visualLength ⟨a.data ++ b.data⟩ = _
  unfold visualLength
  simp

theorem strRepeat_succ (s : String) (k : Nat) :
    strRepeat s (k + 1) = s ++ strRepeat s k := rfl

theorem visualLength_spaces (n : Nat) : visualLength (strRepeat " " n) = n := by
  induction n with
  | zero => rfl
  | succ k ih =>
      rw [strRepeat_succ, visualLength_append, ih,
        show visualLength " " = 1 from by decide]
      omega

theorem visualLength_border : visualLength "║" = 1 := by decide

theorem visualLength_borderSpace : visualLength "║ " = 2 := by decide

theorem visualLength_centerLine (s : String) :
    visualLength (centerLine s) = max (visualLength s + 2) 80 := by
  have h : centerLine s
      = "║" ++ strRepeat " " ((boxWidth - visualLength s) / 2) ++ s
        ++ strRepeat " " ((boxWidth - visualLength s)
            - (boxWidth - visualLength s) / 2) ++ "║" := rfl
  rw [h]
  simp only [visualLength_append, visualLength_spaces, visualLength_border]
  unfold boxWidth
  omega

theorem visualLength_paddedLine (s : String) :
    visualLength (paddedLine s) = max (visualLength s + 3) 80 := by
  have h : paddedLine s
      = "║ " ++ s ++ strRepeat " " (boxWidth - visualLength s - 1) ++ "║" := rfl
  rw [h]
  simp only [visualLength_append, visualLength_spaces, visualLength_borderSpace,
    visualLength_border]
  unfold boxWidth
  omega

theorem paddedLine_ge (s : String) : 80 ≤ visualLength (paddedLine s) := by
  rw [visualLength_paddedLine]
  omega

theorem centerLine_ge (s : String) : 80 ≤ visualLength (centerLine s) := by
  rw [visualLength_centerLine]
  omega

theorem wrapLoop_shape (w : Nat) (ws : List String) :
    ∀ lines cur, (∀ l ∈ lines, ∃ s, l = paddedLine s) →
      ∀ l ∈ wrapLoop w lines cur ws, ∃ s, l = paddedLine s := by
  induction ws with
  | nil =>
      intro lines cur hl l hmem
      unfold wrapLoop at hmem
      split at hmem
      · rcases List.mem_append.1 hmem with h | h
        · exact hl l h
        · exact ⟨cur, List.mem_singleton.1 h⟩
      · exact hl l hmem
  | cons word ws ih =>
      intro lines cur hl l hmem
      unfold wrapLoop at hmem
      split at hmem
      · exact ih lines word hl l hmem
      · split at hmem
        · exact ih lines (cur ++ " " ++ word) hl l hmem
        · refine ih (lines ++ [paddedLine cur]) word ?_ l hmem
          intro l2 h2
          rcases List.mem_append.1 h2 with h2 | h2
          · exact hl l2 h2
          · exact ⟨cur, List.mem_singleton.1 h2⟩

theorem wrapText_shape (content : String) (w : Nat) :
    ∀ l ∈ wrapText content w, ∃ s, l = paddedLine s := by
  intro l hmem
  rw [show wrapText content w
      = if goFields content = [] then []
        else wrapLoop w [] "" (goFields content) from rfl] at hmem
  split at hmem
  · simp at hmem
  · refine wrapLoop_shape w (goFields content) [] "" ?_ l hmem
    intro x hx
    simp at hx

theorem renderTable_shape (headers : List String) (rows : List (List String)) :
    ∀ l ∈ renderTable headers rows, ∃ s, l = paddedLine s := by
  intro l hmem
  unfold renderTable at hmem
  rcases List.mem_cons.1 hmem with h | hmem
  · exact ⟨_, h⟩
  rcases List.mem_cons.1 hmem with h | hmem
  · exact ⟨_, h⟩
  rcases List.mem_map.1 hmem with ⟨row, _, h⟩
  exact ⟨_, h.symm⟩

theorem renderMetric_shape (label value : String) (st : Status) (target : String) :
    ∃ s, renderMetric label value st target = paddedLine s := by
  unfold renderMetric
  split
  · exact ⟨_, rfl⟩
  · exact ⟨_, rfl⟩

theorem renderBlock_shape (b : ContentBlock) :
    ∀ l ∈ renderBlock b, ∃ s, l = paddedLine s := by
  intro l hmem
  unfold renderBlock at hmem
  rcases List.mem_append.1 hmem with h | h
  · split at h
    · exact ⟨b.title, List.mem_singleton.1 h⟩
    · simp at h
  · split at h
    · rcases List.mem_map.1 h with ⟨p, _, hp⟩
      exact ⟨_, hp.symm⟩
    split at h
    · rcases List.mem_map.1 h with ⟨p, _, hp⟩
      exact ⟨_, hp.symm⟩
    split at h
    · exact wrapText_shape _ _ l h
    split at h
    · exact renderTable_shape _ _ l h
    split at h
    · rw [List.mem_singleton.1 h]
      exact renderMetric_shape _ _ _ _
    · simp at h

theorem renderBlocks_shape (bs : List ContentBlock) :
    ∀ l ∈ renderBlocks bs, l = "" ∨ ∃ s, l = paddedLine s := by
  intro l hmem
  unfold renderBlocks at hmem
  split at hmem
  · exact Or.inl (List.mem_singleton.1 hmem)
  · rcases List.mem_flatten.1 hmem with ⟨part, hpart, hl⟩
    rcases List.mem_map.1 hpart with ⟨b, _, hb⟩
    rw [← hb] at hl
    unfold linesOfPart at hl
    split at hl
    · exact Or.inl (List.mem_singleton.1 hl)
    · exact Or.inr (renderBlock_shape b l hl)

theorem renderTags_shape (tags : List (String × String)) :
    ∀ l ∈ renderTags tags, ∃ s, l = paddedLine s := by
  intro l hmem
  rcases List.mem_map.1 hmem with ⟨k, _, hk⟩
  exact ⟨_, hk.symm⟩

theorem boxLinesOf_ge (rp : TeamReport) :
    ∀ line ∈ boxLinesOf rp, line = "" ∨ 80 ≤ visualLength line := by
  have hpadv : ∀ s line2, line2 = paddedLine s → line2 = "" ∨ 80 ≤ visualLength line2 := by
    intro s line2 h
    rw [h]
    exact Or.inr (paddedLine_ge s)
  have hblocks : ∀ bs line2, line2 ∈ renderBlocks bs →
      line2 = "" ∨ 80 ≤ visualLength line2 := by
    intro bs line2 h
    rcases renderBlocks_shape bs line2 h with h2 | ⟨s, h2⟩
    · exact Or.inl h2
    · exact hpadv s line2 h2
  have hsep : (80 : Nat) ≤ visualLength separator := by decide
  intro line hmem
  unfold boxLinesOf at hmem
  rcases List.mem_append.1 hmem with h5 | hF
  swap
  · rcases List.mem_cons.1 hF with h | h
    · rw [h]
      exact Or.inr hsep
    rcases List.mem_cons.1 h with h | h
    · rw [h]
      exact Or.inr (centerLine_ge _)
    · rw [List.mem_singleton.1 h]
      exact Or.inr (by decide)
  rcases List.mem_append.1 h5 with h4 | hE
  swap
  · split at hE
    · rcases List.mem_cons.1 hE with h | h
      · rw [h]
        exact Or.inr hsep
      · exact hblocks _ line h
    · simp at hE
  rcases List.mem_append.1 h4 with h3 | hD
  swap
  · rcases List.mem_flatten.1 hD with ⟨chunk, hchunk, hline⟩
    rcases List.mem_map.1 hchunk with ⟨t, _, ht⟩
    rw [← ht] at hline
    rcases List.mem_append.1 hline with h2 | h2
    swap
    · split at h2
      · exact hblocks _ line h2
      · simp at h2
    rcases List.mem_append.1 h2 with h2 | h2
    · rcases List.mem_cons.1 h2 with h2 | h2
      · rw [h2]
        exact Or.inr hsep
      · exact hpadv _ line (List.mem_singleton.1 h2)
    · rcases List.mem_map.1 h2 with ⟨task, _, htask⟩
      exact hpadv _ line htask.symm
  rcases List.mem_append.1 h3 with h2 | hC
  swap
  · exact hpadv _ line (List.mem_singleton.1 hC)
  rcases List.mem_append.1 h2 with hA | hB
  · rcases List.mem_cons.1 hA with h | h
    · rw [h]
      exact Or.inr (by decide)
    rcases List.mem_cons.1 h with h | h
    · rw [h]
      exact Or.inr (centerLine_ge _)
    · rw [List.mem_singleton.1 h]
      exact Or.inr hsep
  · split at hB
    · rcases List.mem_append.1 hB with h | h
      · exact hblocks _ line h
      · rw [List.mem_singleton.1 h]
        exact Or.inr hsep
    · rcases List.mem_append.1 hB with h | h
      swap
      · rw [List.mem_singleton.1 h]
        exact Or.inr hsep
      rcases List.mem_append.1 h with h | h
      · rcases List.mem_cons.1 h with h | h
        · exact hpadv _ line h
        · exact hpadv _ line (List.mem_singleton.1 h)
      · split at h
        · rcases List.mem_cons.1 h with h | h
          · exact hpadv _ line h
          · rcases renderTags_shape _ line h with ⟨s, hs⟩
            exact hpadv s line hs
        · simp at h

/-- A report whose title exceeds the interior budget of the box. -/
def exC7Report : TeamReport :=
  { reportOfTeams [] with title := strRepeat "a" 80 }

/-- C7 counterexample: for a report with an 80-column title, the box output
contains lines of differing visual widths — paddedLine and centerLine clamp
their padding at zero, so oversized text overflows the fixed budget. -/
theorem c7_counterexample :
    ¬ (∀ l1 ∈ renderBoxLines exC7Report, ∀ l2 ∈ renderBoxLines exC7Report,
        visualLength l1 = visualLength l2) := by
  decide

/-- C7 amended: box lines are uniformly 80 visual columns only while the
rendered text fits the interior budget — centerLine and paddedLine produce
exactly `max (text + borders) 80` columns, the border lines are exactly 80,
and in general every emitted line is either an empty line (from an empty
content block) or at least 80 columns wide. -/
theorem c7_box_line_geometry :
    (∀ s, visualLength (centerLine s) = max (visualLength s + 2) 80) ∧
    (∀ s, visualLength (paddedLine s) = max (visualLength s + 3) 80) ∧
    visualLength header = 80 ∧ visualLength separator = 80 ∧
    visualLength footer = 80 ∧
    (∀ r : TeamReport, ∀ line ∈ renderBoxLines r,
      line = "" ∨ 80 ≤ visualLength line) := by
  refine ⟨visualLength_centerLine, visualLength_paddedLine, by decide, by decide,
    by decide, ?_⟩
  intro r line hmem
  exact boxLinesOf_ge r.SortByDAG line hmem

/-- C7 witness: the final conjunct applied to a concrete report and line. -/
theorem c7_box_line_geometry_witness :
    header = "" ∨ 80 ≤ visualLength header :=
  c7_box_line_geometry.2.2.2.2.2 (reportOfTeams []) header (by decide)

/-! ### Narrative renderer (narrative.go) -/

/-- statusText from narrative.go: the no-emoji word mapping with the raw
status string as the default branch. -/
def statusText (s : Status) : String :=
  if s = StatusGo then "PASS"
  else if s = StatusWarn then "WARNING"
  else if s = StatusNoGo then "FAIL"
  else if s = StatusSkip then "SKIP"
  else s

/-- hasNarrative from narrative.go. -/
def hasNarrative (team : TeamSection) : Bool :=
  match team.narrative with
  | none => false
  | some n => n.problem != "" || n.analysis != "" || n.recommendation != ""

/-- Concatenation of rendered pieces, as Go's sequential WriteString loop
produces it. -/
def strConcat : List String → String
  | [] => ""
  | s :: rest => s ++ strConcat rest

/-- strings.Join with a separator. -/
def strJoinSep (sep : String) : List String → String
  | [] => ""
  | [s] => s
  | s :: rest => s ++ sep ++ strJoinSep sep rest

/-- renderBlockMD from narrative.go. -/
def renderBlockMD (block : ContentBlock) : String :=
  (if block.title ≠ "" then "**" ++ block.title ++ "**\n\n" else "")
  ++ (if block.type = ContentBlockKVPairs then
        strConcat (block.pairs.map (fun pair =>
          "- **" ++ pair.key ++ "**: " ++ pair.value ++ "\n"))
      else if block.type = ContentBlockList then
        strConcat (block.items.map (fun item => "- " ++ item.text ++ "\n"))
      else if block.type = ContentBlockText then block.content ++ "\n"
      else if block.type = ContentBlockTable then
        "| " ++ strJoinSep " | " block.headers ++ " |\n"
        ++ "| " ++ strJoinSep " | " (block.headers.map (fun _ => "---")) ++ " |\n"
        ++ strConcat (block.rows.map (fun row =>
            "| " ++ strJoinSep " | " row ++ " |\n"))
      else if block.type = ContentBlockMetric then
        "- **" ++ block.label ++ "**: " ++ block.value
        ++ (if block.target ≠ "" then " (target: " ++ block.target ++ ")" else "")
        ++ " — " ++ statusText block.status ++ "\n"
      else "")

/-- renderBlocksMD from narrative.go. -/
def renderBlocksMD (blocks : List ContentBlock) : String :=
  strJoinSep "\n\n" (blocks.map renderBlockMD)

/-- A decimal digit character. -/
def digitChar (n : Nat) : Char :=
  if n = 0 then Char.mk 48 (by decide)
  else if n = 1 then Char.mk 49 (by decide)
  else if n = 2 then Char.mk 50 (by decide)
  else if n = 3 then Char.mk 51 (by decide)
  else if n = 4 then Char.mk 52 (by decide)
  else if n = 5 then Char.mk 53 (by decide)
  else if n = 6 then Char.mk 54 (by decide)
  else if n = 7 then Char.mk 55 (by decide)
  else if n = 8 then Char.mk 56 (by decide)
  else Char.mk 57 (by decide)

/-- Decimal digits of a number, most significant first (fuel-structural). -/
def natDigitsAux : Nat → Nat → List Char
  | 0, _ => []
  | fuel + 1, n =>
      if n < 10 then [digitChar n]
      else natDigitsAux fuel (n / 10) ++ [digitChar (n % 10)]

/-- Zero-padded decimal rendering, as Go time.Format zero-pads fields. -/
def padNat (w n : Nat) : String :=
  let ds := natDigitsAux (n + 1) n
  ⟨List.replicate (w - ds.length) (digitChar 0) ++ ds⟩

/-- Go `t.Format "2006-01-02"` over the Date stand-in. -/
def formatDate (d : Date) : String :=
  padNat 4 d.year ++ "-" ++ padNat 2 d.month ++ "-" ++ padNat 2 d.day

/-- One team section of the narrative template, trim markers resolved. -/
def narrativeTeamMD (t : TeamSection) : String :=
  "\n\n### " ++ t.name ++ "\n\n**Status**: " ++ statusText t.status
  ++ (if hasNarrative t then
        (match t.narrative with
         | some n =>
            (if n.problem ≠ "" then "\n\n#### Problem\n\n" ++ n.problem else "")
            ++ (if n.analysis ≠ "" then "\n\n#### Analysis\n\n" ++ n.analysis else "")
            ++ (if n.recommendation ≠ "" then
                  "\n\n#### Recommendation\n\n" ++ n.recommendation
                else "")
         | none => "")
      else "")
  ++ (if t.tasks ≠ [] then
        "\n\n#### Tasks\n\n| Task | Status | Detail |\n| --- | --- | --- |"
        ++ strConcat (t.tasks.map (fun task =>
            "\n| " ++ task.id ++ " | " ++ statusText task.status ++ " | "
              ++ task.detail ++ " |"))
      else "")
  ++ (if t.contentBlocks ≠ [] then
        "\n\n#### Details\n\n" ++ renderBlocksMD t.contentBlocks
      else "")

/-- NarrativeTemplate from narrative.go, expanded to the string it emits
(trim markers resolved exactly as Go text/template does). -/
def narrativeMD (r : TeamReport) : String :=
  "---\ntitle: \"" ++ r.EffectiveTitle ++ "\"\ndate: \"" ++ formatDate r.generatedAt
  ++ "\"\n---\n\n# " ++ r.EffectiveTitle
  ++ "\n\n**Project**: " ++ r.project
  ++ "\n**Version**: " ++ r.version
  ++ "\n**Phase**: " ++ r.phase
  ++ "\n**Overall Status**: " ++ statusText r.status
  ++ (if r.summary ≠ "" then "\n\n## Executive Summary\n\n" ++ r.summary else "")
  ++ (if r.summaryBlocks ≠ [] then
        "\n\n## Overview\n\n" ++ renderBlocksMD r.summaryBlocks
      else "")
  ++ "\n\n## Team Results"
  ++ strConcat (r.teams.map narrativeTeamMD)
  ++ (if r.footerBlocks ≠ [] then
        "\n\n## Action Items\n\n" ++ renderBlocksMD r.footerBlocks
      else "")
  ++ (if r.conclusion ≠ "" then "\n\n## Conclusion\n\n" ++ r.conclusion else "")
  ++ "\n"

/-- Render from narrative.go: SortByDAG first, then the template. -/
def renderNarrative (r : TeamReport) : String :=
  narrativeMD r.SortByDAG

/-! ### Substring machinery -/

/-- Whether `pat` starts `l`. -/
def isPrefixB : List Char → List Char → Bool
  | [], _ => true
  | _ :: _, [] => false
  | a :: as, b :: bs => a == b && isPrefixB as bs

/-- Whether `pat` occurs contiguously inside `l`. -/
def containsSub (pat : List Char) : List Char → Bool
  | [] => isPrefixB pat []
  | c :: rest => isPrefixB pat (c :: rest) || containsSub pat rest

/-- Go strings.Contains. -/
def strContains (s pat : String) : Bool :=
  containsSub pat.data s.data

/-- Substring occurrence as an explicit split. -/
def StrIn (pat s : String) : Prop :=
  ∃ a b, s.data = a ++ pat.data ++ b

theorem isPrefixB_iff (pat l : List Char) :
    isPrefixB pat l = true ↔ ∃ b, l = pat ++ b := by
  induction pat generalizing l with
  | nil => simp [isPrefixB]
  | cons a as ih =>
      cases l with
      | nil =>
          simp [isPrefixB]
      | cons c cs =>
          simp only [isPrefixB, Bool.and_eq_true, beq_iff_eq, ih]
          constructor
          · rintro ⟨rfl, b, rfl⟩
            exact ⟨b, rfl⟩
          · rintro ⟨b, hb⟩
            cases hb
            exact ⟨rfl, b, rfl⟩

theorem containsSub_iff (pat l : List Char) :
    containsSub pat l = true ↔ ∃ a b, l = a ++ pat ++ b := by
  induction l with
  | nil =>
      simp only [containsSub, isPrefixB_iff]
      constructor
      · rintro ⟨b, hb⟩
        exact ⟨[], b, hb⟩
      · rintro ⟨a, b, hab⟩
        rcases List.append_eq_nil.1 hab.symm with ⟨hap, hb⟩
        rcases List.append_eq_nil.1 hap with ⟨ha, hp⟩
        exact ⟨[], by simp [hp]⟩
  | cons c cs ih =>
      simp only [containsSub, Bool.or_eq_true, isPrefixB_iff, ih]
      constructor
      · rintro (⟨b, hb⟩ | ⟨a, b, hb⟩)
        · exact ⟨[], b, by simp [hb]⟩
        · exact ⟨c :: a, b, by simp [hb]⟩
      · rintro ⟨a, b, hb⟩
        cases a with
        | nil => exact Or.inl ⟨b, by simpa using hb⟩
        | cons a0 as =>
            right
            refine ⟨as, b, ?_⟩
            have := hb
            simp only [List.cons_append] at this
            exact (List.cons_eq_cons.1 this).2

theorem strContains_iff (s pat : String) :
    strContains s pat = true ↔ StrIn pat s :=
  containsSub_iff pat.data s.data

theorem strData_append (a b : String) : (a ++ b).data = a.data ++ b.data := rfl

theorem strIn_refl (pat : String) : StrIn pat pat :=
  ⟨[], [], by simp⟩

theorem strIn_left (x pat s : String) (h : StrIn pat s) : StrIn pat (x ++ s) := by
  rcases h with ⟨a, b, hab⟩
  exact ⟨x.data ++ a, b, by simp [strData_append, hab]⟩

theorem strIn_right (y pat s : String) (h : StrIn pat s) : StrIn pat (s ++ y) := by
  rcases h with ⟨a, b, hab⟩
  exact ⟨a, b ++ y.data, by simp [strData_append, hab]⟩

theorem strIn_concat_of_mem (pat m : String) (L : List String)
    (hm : m ∈ L) (h : StrIn pat m) : StrIn pat (strConcat L) := by
  induction L with
  | nil => cases hm
  | cons s rest ih =>
      rcases List.mem_cons.1 hm with rfl | hm2
      · exact strIn_right _ _ _ h
      · exact strIn_left _ _ _ (ih hm2)

/-- The spec's concrete scenario report: security (NO-GO; hardcoded-secrets
GO, sql-injection NO-GO with severity critical) and qa (GO; test-coverage GO
with detail "Coverage: 87%"), overall NO-GO, version v1.2.0. -/
def mkTask (i : String) (st : Status) (sev det : String) : TaskResult :=
  { id := i, status := st, severity := sev, detail := det, durationMs := 0,
    metadata := [] }

def exSecurityTeam : TeamSection :=
  { id := "security", name := "security", agentId := "", model := "",
    dependsOn := [],
    tasks := [mkTask "hardcoded-secrets" StatusGo "" "",
      mkTask "sql-injection" StatusNoGo "critical" ""],
    status := StatusNoGo, verdict := "", contentBlocks := [], narrative := none }

def exQaTeam : TeamSection :=
  { id := "qa", name := "qa", agentId := "", model := "", dependsOn := [],
    tasks := [mkTask "test-coverage" StatusGo "" "Coverage: 87%"],
    status := StatusGo, verdict := "", contentBlocks := [], narrative := none }

def exScenarioReport : TeamReport :=
  { reportOfTeams [exSecurityTeam, exQaTeam] with
    status := StatusNoGo, version := "v1.2.0" }

/-- C3 counterexample: the narrative task table has no Severity column at
all — its header is Task/Status/Detail, a task's severity label is never
rendered (the sql-injection row carries the empty detail, not "critical"),
and the word "Severity" appears nowhere in the output. -/
theorem c3_counterexample :
    strContains (renderNarrative exScenarioReport) "Severity" = false ∧
    strContains (renderNarrative exScenarioReport)
      "| sql-injection | FAIL | critical" = false ∧
    strContains (renderNarrative exScenarioReport) "| Task | Status | Detail |" = true ∧
    strContains (renderNarrative exScenarioReport) "| sql-injection | FAIL |  |" = true := by
  decide

/-! ### C8: the narrative output carries no status-icon glyphs -/

/-- The four status-icon codepoints of the box renderer. -/
def isIconChar (c : Char) : Bool :=
  c.toNat = 0x1F7E2 || c.toNat = 0x1F7E1 || c.toNat = 0x1F534 || c.toNat = 0x26AA

/-- A string free of the four status-icon glyphs. -/
def noIcons (s : String) : Bool :=
  s.data.all (fun c => !(isIconChar c))

theorem noIcons_append (a b : String) :
    noIcons (a ++ b) = (noIcons a && noIcons b) := by
  unfold noIcons
  rw [strData_append, List.all_append]

theorem noIcons_concat (L : List String) (h : ∀ m ∈ L, noIcons m = true) :
    noIcons (strConcat L) = true := by
  induction L with
  | nil => decide
  | cons x rest ih =>
      show noIcons (x ++ strConcat rest) = true
      rw [noIcons_append, Bool.and_eq_true]
      exact ⟨h x (List.mem_cons_self x rest), ih (fun m hm => h m (List.mem_cons_of_mem x hm))⟩

theorem noIcons_joinSep (sep : String) (hsep : noIcons sep = true)
    (L : List String) (h : ∀ m ∈ L, noIcons m = true) :
    noIcons (strJoinSep sep L) = true := by
  induction L with
  | nil => rfl
  | cons x rest ih =>
      cases rest with
      | nil => exact h x (List.mem_cons_self x [])
      | cons y ys =>
          show noIcons (x ++ sep ++ strJoinSep sep (y :: ys)) = true
          simp only [noIcons_append, Bool.and_eq_true]
          refine ⟨⟨h x (List.mem_cons_self x _), hsep⟩, ?_⟩
          exact ih (fun m hm => h m (List.mem_cons_of_mem x hm))

theorem noIcons_statusText (s : Status) (h : noIcons s = true) :
    noIcons (statusText s) = true := by
  unfold statusText
  split
  · decide
  split
  · decide
  split
  · decide
  split
  · decide
  · exact h

theorem isIconChar_digitChar (n : Nat) : isIconChar (digitChar n) = false := by
  unfold digitChar
  repeat' split
  all_goals decide

theorem isIconChar_natDigitsAux (fuel : Nat) :
    ∀ n, ∀ c ∈ natDigitsAux fuel n, isIconChar c = false := by
  induction fuel with
  | zero =>
      intro n c hc
      cases hc
  | succ k ih =>
      intro n c hc
      unfold natDigitsAux at hc
      split at hc
      · rw [List.mem_singleton.1 hc]
        exact isIconChar_digitChar n
      · rcases List.mem_append.1 hc with hc | hc
        · exact ih (n / 10) c hc
        · rw [List.mem_singleton.1 hc]
          exact isIconChar_digitChar (n % 10)

theorem noIcons_padNat (w n : Nat) : noIcons (padNat w n) = true := by
  unfold noIcons padNat
  simp only [List.all_eq_true, List.mem_append]
  intro c hc
  rcases hc with hc | hc
  · rw [List.eq_of_mem_replicate hc]
    decide
  · rw [isIconChar_natDigitsAux (n + 1) n c hc]
    decide

theorem noIcons_formatDate (d : Date) : noIcons (formatDate d) = true := by
  unfold formatDate
  simp only [noIcons_append, Bool.and_eq_true]
  exact ⟨⟨⟨⟨noIcons_padNat 4 d.year, by decide⟩, noIcons_padNat 2 d.month⟩,
    by decide⟩, noIcons_padNat 2 d.day⟩

def pairClean (p : KVPair) : Bool :=
  noIcons p.key && noIcons p.value && noIcons p.icon

def itemClean (li : ListItem) : Bool :=
  noIcons li.text && noIcons li.icon && noIcons li.status

def taskClean (t : TaskResult) : Bool :=
  noIcons t.id && noIcons t.status && noIcons t.severity && noIcons t.detail

def blockClean (b : ContentBlock) : Bool :=
  noIcons b.title && b.pairs.all pairClean && b.items.all itemClean
    && b.headers.all noIcons && b.rows.all (fun row => row.all noIcons)
    && noIcons b.content && noIcons b.label && noIcons b.value
    && noIcons b.status && noIcons b.target

def narrClean : Option NarrativeSection → Bool
  | none => true
  | some n => noIcons n.problem && noIcons n.analysis && noIcons n.recommendation

def teamClean (t : TeamSection) : Bool :=
  noIcons t.id && noIcons t.name && noIcons t.agentId && noIcons t.model
    && t.dependsOn.all noIcons && t.tasks.all taskClean && noIcons t.status
    && noIcons t.verdict && t.contentBlocks.all blockClean
    && narrClean t.narrative

/-- Every string field of a report is free of the four icon glyphs. -/
def reportClean (r : TeamReport) : Bool :=
  noIcons r.schema && noIcons r.title && noIcons r.project && noIcons r.version
    && noIcons r.target && noIcons r.phase
    && r.tags.all (fun p => noIcons p.1 && noIcons p.2)
    && r.summaryBlocks.all blockClean && r.teams.all teamClean
    && r.footerBlocks.all blockClean && noIcons r.summary
    && noIcons r.conclusion && noIcons r.status && noIcons r.generatedBy

theorem noIcons_renderBlockMD (b : ContentBlock) (h : blockClean b = true) :
    noIcons (renderBlockMD b) = true := by
  simp only [blockClean, Bool.and_eq_true] at h
  obtain ⟨⟨⟨⟨⟨⟨⟨⟨⟨ht, hp⟩, hi⟩, hh⟩, hr⟩, hc⟩, hl⟩, hv⟩, hs⟩, htg⟩ := h
  simp only [List.all_eq_true] at hp hi hh hr
  unfold renderBlockMD
  repeat' split
  all_goals try simp only [noIcons_append, Bool.and_eq_true]
  all_goals repeat' apply And.intro
  all_goals first
    | decide
    | assumption
    | exact noIcons_statusText _ hs
    | (refine noIcons_concat _ ?_
       intro m hm
       rcases List.mem_map.1 hm with ⟨q, hq, rfl⟩
       first
         | (have h2 := hp q hq
            simp only [pairClean, Bool.and_eq_true] at h2
            simp only [noIcons_append, Bool.and_eq_true]
            exact ⟨⟨⟨⟨by decide, h2.1.1⟩, by decide⟩, h2.1.2⟩, by decide⟩)
         | (have h2 := hi q hq
            simp only [itemClean, Bool.and_eq_true] at h2
            simp only [noIcons_append, Bool.and_eq_true]
            exact ⟨⟨by decide, h2.1.1⟩, by decide⟩)
         | (have h2 := hr q hq
            simp only [List.all_eq_true] at h2
            simp only [noIcons_append, Bool.and_eq_true]
            exact ⟨⟨by decide, noIcons_joinSep _ (by decide) _ h2⟩, by decide⟩))
    | exact noIcons_joinSep _ (by decide) _ hh
    | (refine noIcons_joinSep _ (by decide) _ ?_
       intro m hm
       rcases List.mem_map.1 hm with ⟨q, hq, rfl⟩
       decide)

theorem noIcons_renderBlocksMD (blocks : List ContentBlock)
    (h : blocks.all blockClean = true) :
    noIcons (renderBlocksMD blocks) = true := by
  unfold renderBlocksMD
  refine noIcons_joinSep _ (by decide) _ ?_
  intro m hm
  rcases List.mem_map.1 hm with ⟨b, hb, rfl⟩
  exact noIcons_renderBlockMD b (List.all_eq_true.1 h b hb)

theorem noIcons_narrativeTeamMD (t : TeamSection) (h : teamClean t = true) :
    noIcons (narrativeTeamMD t) = true := by
  simp only [teamClean, Bool.and_eq_true] at h
  obtain ⟨⟨⟨⟨⟨⟨⟨⟨⟨hid, hname⟩, hag⟩, hmod⟩, hdeps⟩, htasks⟩, hst⟩, hverd⟩,
    hblocks⟩, hnarr⟩ := h
  simp only [List.all_eq_true] at htasks
  unfold narrativeTeamMD
  simp only [noIcons_append, Bool.and_eq_true]
  refine ⟨⟨⟨⟨⟨⟨by decide, hname⟩, by decide⟩, noIcons_statusText _ hst⟩, ?_⟩,
    ?_⟩, ?_⟩
  · split
    · split
      · rename_i n heq
        rw [heq] at hnarr
        simp only [narrClean, Bool.and_eq_true] at hnarr
        obtain ⟨⟨hnp, hna⟩, hnr⟩ := hnarr
        simp only [noIcons_append, Bool.and_eq_true]
        refine ⟨⟨?_, ?_⟩, ?_⟩
        · split
          · rw [noIcons_append, Bool.and_eq_true]
            exact ⟨by decide, hnp⟩
          · decide
        · split
          · rw [noIcons_append, Bool.and_eq_true]
            exact ⟨by decide, hna⟩
          · decide
        · split
          · rw [noIcons_append, Bool.and_eq_true]
            exact ⟨by decide, hnr⟩
          · decide
      · decide
    · decide
  · split
    · simp only [noIcons_append, Bool.and_eq_true]
      refine ⟨by decide, noIcons_concat _ ?_⟩
      intro m hm
      rcases List.mem_map.1 hm with ⟨task, htk, rfl⟩
      have h2 := htasks task htk
      simp only [taskClean, Bool.and_eq_true] at h2
      obtain ⟨⟨⟨h2id, h2st⟩, h2sev⟩, h2det⟩ := h2
      simp only [noIcons_append, Bool.and_eq_true]
      exact ⟨⟨⟨⟨⟨⟨by decide, h2id⟩, by decide⟩, noIcons_statusText _ h2st⟩,
        by decide⟩, h2det⟩, by decide⟩
    · decide
  · split
    · rw [noIcons_append, Bool.and_eq_true]
      exact ⟨by decide, noIcons_renderBlocksMD _ hblocks⟩
    · decide

theorem noIcons_effectiveTitle (r : TeamReport) (h : noIcons r.title = true) :
    noIcons r.EffectiveTitle = true := by
  unfold TeamReport.EffectiveTitle
  split
  · exact h
  · decide

theorem noIcons_narrativeMD (r : TeamReport) (h : reportClean r = true) :
    noIcons (narrativeMD r) = true := by
  simp only [reportClean, Bool.and_eq_true] at h
  obtain ⟨⟨⟨⟨⟨⟨⟨⟨⟨⟨⟨⟨⟨hsch, htit⟩, hproj⟩, hver⟩, htgt⟩, hph⟩, htags⟩, hsb⟩,
    hteams⟩, hfb⟩, hsum⟩, hconc⟩, hstat⟩, hgen⟩ := h
  unfold narrativeMD
  simp only [noIcons_append, Bool.and_eq_true]
  repeat' apply And.intro
  all_goals first
    | decide
    | assumption
    | exact noIcons_effectiveTitle r htit
    | exact noIcons_formatDate r.generatedAt
    | exact noIcons_statusText _ hstat
    | (refine noIcons_concat _ ?_
       intro m hm
       rcases List.mem_map.1 hm with ⟨t, htmem, rfl⟩
       exact noIcons_narrativeTeamMD t (List.all_eq_true.1 hteams t htmem))
    | (split
       · first
          | assumption
          | (simp only [noIcons_append, Bool.and_eq_true]
             constructor
             · decide
             · first
                | assumption
                | exact noIcons_renderBlocksMD _ hsb
                | exact noIcons_renderBlocksMD _ hfb)
       · decide)

theorem idToTeam_mem (ts : List TeamSection) :
    ∀ i t, idToTeam ts i = some t → t ∈ ts := by
  have main : ∀ (l : List TeamSection) (m : String → Option TeamSection),
      (∀ i t, m i = some t → t ∈ ts) → (∀ x ∈ l, x ∈ ts) →
      ∀ i t, (l.foldl (fun m2 t2 => update m2 t2.id (some t2)) m) i = some t →
        t ∈ ts := by
    intro l
    induction l with
    | nil => intro m hm _ i t h; exact hm i t h
    | cons x xs ih =>
        intro m hm hl i t h
        refine ih (update m x.id (some x)) ?_ (fun y hy => hl y (List.mem_cons_of_mem x hy)) i t h
        intro i2 t2 h2
        unfold update at h2
        split at h2
        · cases h2
          exact hl x (List.mem_cons_self x xs)
        · exact hm i2 t2 h2
  intro i t h
  exact main ts (fun _ => none) (fun i2 t2 h2 => by cases h2) (fun x hx => hx) i t h

theorem kahnLoop_sorted_mem (ts : List TeamSection)
    (downstream : String → List String) (fuel : Nat) :
    ∀ queue inDeg processed sorted,
      (∀ t ∈ sorted, t ∈ ts) →
      ∀ t ∈ (kahnLoop (idToTeam ts) downstream fuel queue inDeg processed
        sorted).sorted, t ∈ ts := by
  induction fuel with
  | zero => intro queue inDeg processed sorted hs t ht; exact hs t ht
  | succ k ih =>
      intro queue inDeg processed sorted hs t ht
      cases queue with
      | nil => exact hs t ht
      | cons id rest =>
          rw [kahnLoop] at ht
          split at ht
          · exact ih rest inDeg processed sorted hs t ht
          · refine ih _ _ _ _ ?_ t ht
            intro t2 ht2
            rcases List.mem_append.1 ht2 with h2 | h2
            · exact hs t2 h2
            · cases hopt : idToTeam ts id with
              | none => rw [hopt] at h2; cases h2
              | some u =>
                  rw [hopt] at h2
                  rw [List.mem_singleton.1 h2]
                  exact idToTeam_mem ts id u hopt

theorem sortByDAGTeams_mem (ts : List TeamSection) :
    ∀ t ∈ sortByDAGTeams ts, t ∈ ts := by
  intro t ht
  unfold sortByDAGTeams at ht
  split at ht
  · exact ht
  · rcases List.mem_append.1 ht with h | h
    · exact kahnLoop_sorted_mem ts _ _ _ _ _ _ (fun x hx => by cases hx) t h
    · exact List.mem_filter.1 h |>.1

theorem reportClean_SortByDAG (r : TeamReport) (h : reportClean r = true) :
    reportClean r.SortByDAG = true := by
  simp only [reportClean, Bool.and_eq_true] at h ⊢
  obtain ⟨⟨⟨⟨⟨⟨⟨⟨⟨⟨⟨⟨⟨hsch, htit⟩, hproj⟩, hver⟩, htgt⟩, hph⟩, htags⟩, hsb⟩,
    hteams⟩, hfb⟩, hsum⟩, hconc⟩, hstat⟩, hgen⟩ := h
  refine ⟨⟨⟨⟨⟨⟨⟨⟨⟨⟨⟨⟨⟨hsch, htit⟩, hproj⟩, hver⟩, htgt⟩, hph⟩, htags⟩, hsb⟩,
    ?_⟩, hfb⟩, hsum⟩, hconc⟩, hstat⟩, hgen⟩
  simp only [List.all_eq_true] at hteams ⊢
  intro t ht
  exact hteams t (sortByDAGTeams_mem r.teams t ht)

/-- C8: the narrative renderer maps each canonical status to its word (GO to
PASS, WARN to WARNING, NO-GO to FAIL, SKIP to SKIP), and for every report
none of whose string fields contains a box status-icon glyph the whole
narrative output is free of the four glyphs. -/
theorem c8_narrative_no_icons :
    statusText StatusGo = "PASS" ∧ statusText StatusWarn = "WARNING" ∧
    statusText StatusNoGo = "FAIL" ∧ statusText StatusSkip = "SKIP" ∧
    (∀ r : TeamReport, reportClean r = true →
      noIcons (renderNarrative r) = true) := by
  refine ⟨rfl, rfl, rfl, rfl, ?_⟩
  intro r h
  exact noIcons_narrativeMD r.SortByDAG (reportClean_SortByDAG r h)

/-- C8 witness: the glyph-freedom conclusion at the concrete scenario
report. -/
theorem c8_narrative_no_icons_witness :
    noIcons (renderNarrative exScenarioReport) = true :=
  c8_narrative_no_icons.2.2.2.2 exScenarioReport (by decide)

/-! ### sortStrings correctness -/

theorem char_eq_of_toNat_eq {a b : Char} (h : a.toNat = b.toNat) : a = b := by
  cases a with
  | mk av ha =>
      cases b with
      | mk bv hb =>
          simp only [Char.toNat] at h
          congr 1
          exact UInt32.toNat.inj h

theorem lexLt_irrefl (l : List Char) : lexLt l l = false := by
  induction l with
  | nil => rfl
  | cons c cs ih =>
      unfold lexLt
      simp [Nat.lt_irrefl, ih]

theorem lexLt_trans {a b c : List Char} (h1 : lexLt a b = true)
    (h2 : lexLt b c = true) : lexLt a c = true := by
  induction a generalizing b c with
  | nil =>
      cases b with
      | nil => cases h1
      | cons y ys =>
          cases c with
          | nil => cases h2
          | cons z zs => rfl
  | cons x xs ih =>
      cases b with
      | nil => cases h1
      | cons y ys =>
          cases c with
          | nil => cases h2
          | cons z zs =>
              unfold lexLt at h1 h2 ⊢
              by_cases hxy : x.toNat < y.toNat <;>
                by_cases hyz : y.toNat < z.toNat <;>
                simp only [hxy, hyz, if_true, if_false, ite_true, ite_false] at h1 h2
              · have : x.toNat < z.toNat := Nat.lt_trans hxy hyz
                simp [this]
              · by_cases hzy : z.toNat < y.toNat
                · simp [hzy] at h2
                · simp only [hzy, ite_false, if_false] at h2
                  have hyz2 : y.toNat = z.toNat := by omega
                  have : x.toNat < z.toNat := by omega
                  simp [this]
              · by_cases hyx : y.toNat < x.toNat
                · simp [hyx] at h1
                · simp only [hyx, ite_false, if_false] at h1
                  have : x.toNat < z.toNat := by omega
                  simp [this]
              · by_cases hyx : y.toNat < x.toNat
                · simp [hyx] at h1
                · simp only [hyx, ite_false, if_false] at h1
                  by_cases hzy : z.toNat < y.toNat
                  · simp [hzy] at h2
                  · simp only [hzy, ite_false, if_false] at h2
                    have hxz : ¬ x.toNat < z.toNat := by omega
                    have hzx : ¬ z.toNat < x.toNat := by omega
                    simp only [hxz, hzx, ite_false, if_false]
                    exact ih h1 h2

theorem lexLt_antisymm : ∀ {a b : List Char}, lexLt a b = false →
    lexLt b a = false → a = b := by
  intro a
  induction a with
  | nil =>
      intro b h1 _
      cases b with
      | nil => rfl
      | cons y ys => cases h1
  | cons x xs ih =>
      intro b h1 h2
      cases b with
      | nil => cases h2
      | cons y ys =>
          unfold lexLt at h1 h2
          by_cases hxy : x.toNat < y.toNat
          · simp [hxy] at h1
          · by_cases hyx : y.toNat < x.toNat
            · simp [hyx] at h2
            · simp only [hxy, hyx, ite_false, if_false] at h1 h2
              have hxy2 : x = y := char_eq_of_toNat_eq (by omega)
              rw [hxy2, ih h1 h2]

theorem strLt_irrefl (s : String) : strLt s s = false :=
  lexLt_irrefl s.data

theorem strLt_trans {a b c : String} (h1 : strLt a b = true)
    (h2 : strLt b c = true) : strLt a c = true :=
  lexLt_trans h1 h2

theorem strLt_antisymm {a b : String} (h1 : strLt a b = false)
    (h2 : strLt b a = false) : a = b :=
  String.ext (lexLt_antisymm h1 h2)

theorem selectPass_perm (cur : String) (rest : List String) :
    ((selectPass cur rest).1 :: (selectPass cur rest).2).Perm (cur :: rest) := by
  induction rest generalizing cur with
  | nil => exact List.Perm.refl _
  | cons x xs ih =>
      unfold selectPass
      split
      · exact List.Perm.trans (List.Perm.swap cur _ _) (List.Perm.cons cur (ih x))
      · exact List.Perm.trans (List.Perm.swap x _ _)
          (List.Perm.trans (List.Perm.cons x (ih cur)) (List.Perm.swap cur x xs))

theorem selectPass_min (cur : String) (rest : List String) :
    strLt cur (selectPass cur rest).1 = false ∧
    ∀ y ∈ (selectPass cur rest).2, strLt y (selectPass cur rest).1 = false := by
  induction rest generalizing cur with
  | nil => exact ⟨strLt_irrefl cur, fun y hy => by cases hy⟩
  | cons x xs ih =>
      unfold selectPass
      split
      · rename_i h
        obtain ⟨ihHead, ihTail⟩ := ih x
        have hcur : strLt cur (selectPass x xs).1 = false := by
          cases hc : strLt cur (selectPass x xs).1 with
          | false => rfl
          | true =>
              have h2 := strLt_trans h hc
              rw [ihHead] at h2
              exact Bool.noConfusion h2
        refine ⟨hcur, ?_⟩
        intro y hy
        rcases List.mem_cons.1 hy with rfl | hy2
        · exact hcur
        · exact ihTail y hy2
      · rename_i h
        obtain ⟨ihHead, ihTail⟩ := ih cur
        refine ⟨ihHead, ?_⟩
        intro y hy
        rcases List.mem_cons.1 hy with rfl | hy2
        · cases hc : strLt y (selectPass cur xs).1 with
          | false => rfl
          | true =>
              exfalso
              cases hd : strLt (selectPass cur xs).1 cur with
              | true =>
                  have h2 := strLt_trans hc hd
                  exact h h2
              | false =>
                  have h2 := strLt_antisymm hd ihHead
                  rw [h2] at hc
                  exact h hc
        · exact ihTail y hy2

theorem sortStringsGo_perm : ∀ (n : Nat) (l : List String), l.length ≤ n →
    (sortStringsGo n l).Perm l := by
  intro n
  induction n with
  | zero =>
      intro l hl
      rw [List.length_eq_zero.1 (Nat.le_zero.1 hl)]
      exact List.Perm.refl _
  | succ k ih =>
      intro l hl
      cases l with
      | nil => exact List.Perm.refl _
      | cons x xs =>
          show ((selectPass x xs).1 :: sortStringsGo k (selectPass x xs).2).Perm (x :: xs)
          have hlen : (selectPass x xs).2.length ≤ k := by
            rw [selectPass_length]
            exact Nat.le_of_succ_le_succ hl
          exact List.Perm.trans
            (List.Perm.cons (selectPass x xs).1 (ih (selectPass x xs).2 hlen))
            (selectPass_perm x xs)

theorem sortStringsGo_sorted : ∀ (n : Nat) (l : List String), l.length ≤ n →
    List.Pairwise (fun a b => strLt b a = false) (sortStringsGo n l) := by
  intro n
  induction n with
  | zero =>
      intro l hl
      rw [List.length_eq_zero.1 (Nat.le_zero.1 hl)]
      exact List.Pairwise.nil
  | succ k ih =>
      intro l hl
      cases l with
      | nil => exact List.Pairwise.nil
      | cons x xs =>
          show List.Pairwise _ ((selectPass x xs).1 :: sortStringsGo k (selectPass x xs).2)
          have hlen : (selectPass x xs).2.length ≤ k := by
            rw [selectPass_length]
            exact Nat.le_of_succ_le_succ hl
          rw [List.pairwise_cons]
          refine ⟨?_, ih (selectPass x xs).2 hlen⟩
          intro y hy
          have hy2 : y ∈ (selectPass x xs).2 :=
            (sortStringsGo_perm k (selectPass x xs).2 hlen).mem_iff.1 hy
          exact (selectPass_min x xs).2 y hy2

theorem sortStrings_perm (l : List String) : (sortStrings l).Perm l :=
  sortStringsGo_perm l.length l (Nat.le_refl _)

theorem sortStrings_sorted (l : List String) :
    List.Pairwise (fun a b => strLt b a = false) (sortStrings l) :=
  sortStringsGo_sorted l.length l (Nat.le_refl _)

instance strGeAntisymm : IsAntisymm String (fun a b => strLt b a = false) :=
  ⟨fun _ _ h1 h2 => strLt_antisymm h2 h1⟩

theorem sortStrings_eq_of_perm {l1 l2 : List String} (h : l1.Perm l2) :
    sortStrings l1 = sortStrings l2 :=
  List.eq_of_perm_of_sorted
    (List.Perm.trans (sortStrings_perm l1) (List.Perm.trans h (sortStrings_perm l2).symm))
    (sortStrings_sorted l1) (sortStrings_sorted l2)

/-! ### Closed forms of the SortByDAG maps -/

/-- Input ids in input order. -/
def idsOf (ts : List TeamSection) : List String :=
  ts.map (fun t => t.id)

theorem update_same {α : Type} (m : String → α) (k : String) (v : α) :
    update m k v k = v := by
  unfold update
  rw [if_pos rfl]

theorem update_other {α : Type} (m : String → α) (k : String) (v : α)
    (x : String) (h : x ≠ k) : update m k v x = m x := by
  unfold update
  rw [if_neg h]

theorem foldl_upd_not_mem (l : List TeamSection) :
    ∀ (m : String → Option TeamSection) (i : String), i ∉ idsOf l →
      (l.foldl (fun m2 t2 => update m2 t2.id (some t2)) m) i = m i := by
  induction l with
  | nil => intro m i _; rfl
  | cons x xs ih =>
      intro m i hmem
      simp only [idsOf, List.map_cons, List.mem_cons, not_or] at hmem
      show (xs.foldl (fun m2 t2 => update m2 t2.id (some t2))
        (update m x.id (some x))) i = m i
      rw [ih (update m x.id (some x)) i hmem.2]
      exact update_other m x.id (some x) i hmem.1

theorem foldl_upd_id (l : List TeamSection) :
    ∀ (m : String → Option TeamSection) (i : String) (t : TeamSection),
      (∀ t2, m i = some t2 → t2.id = i) →
      (l.foldl (fun m2 t2 => update m2 t2.id (some t2)) m) i = some t →
      t.id = i := by
  induction l with
  | nil => intro m i t hm h; exact hm t h
  | cons x xs ih =>
      intro m i t hm h
      refine ih (update m x.id (some x)) i t ?_ h
      intro t2 h2
      unfold update at h2
      split at h2
      · rename_i heq
        cases h2
        exact heq.symm
      · exact hm t2 h2

theorem idToTeam_id (ts : List TeamSection) (i : String) (t : TeamSection)
    (h : idToTeam ts i = some t) : t.id = i :=
  foldl_upd_id ts (fun _ => none) i t (fun t2 h2 => by cases h2) h

theorem idToTeam_none (ts : List TeamSection) (i : String)
    (h : i ∉ idsOf ts) : idToTeam ts i = none :=
  foldl_upd_not_mem ts (fun _ => none) i h

theorem foldl_upd_mem_isSome (l : List TeamSection) :
    ∀ (m : String → Option TeamSection) (i : String), i ∈ idsOf l →
      ((l.foldl (fun m2 t2 => update m2 t2.id (some t2)) m) i).isSome = true := by
  induction l with
  | nil =>
      intro m i h
      cases h
  | cons x xs ih =>
      intro m i h
      show ((xs.foldl (fun m2 t2 => update m2 t2.id (some t2))
        (update m x.id (some x))) i).isSome = true
      by_cases hmem : i ∈ idsOf xs
      · exact ih _ i hmem
      · rw [foldl_upd_not_mem xs _ i hmem]
        simp only [idsOf, List.map_cons, List.mem_cons] at h
        rcases h with h | h
        · rw [h, update_same]
          rfl
        · exact absurd h hmem

theorem presentId_iff (ts : List TeamSection) (i : String) :
    presentId ts i = true ↔ i ∈ idsOf ts := by
  constructor
  · intro h
    by_contra hmem
    unfold presentId at h
    rw [idToTeam_none ts i hmem] at h
    cases h
  · intro h
    exact foldl_upd_mem_isSome ts (fun _ => none) i h

theorem foldl_upd_mem_nodup (l : List TeamSection) :
    ∀ (m : String → Option TeamSection) (t : TeamSection), t ∈ l →
      (idsOf l).Nodup →
      (l.foldl (fun m2 t2 => update m2 t2.id (some t2)) m) t.id = some t := by
  induction l with
  | nil =>
      intro m t ht
      cases ht
  | cons x xs ih =>
      intro m t ht hnd
      simp only [idsOf, List.map_cons, List.nodup_cons] at hnd
      show (xs.foldl (fun m2 t2 => update m2 t2.id (some t2))
        (update m x.id (some x))) t.id = some t
      rcases List.mem_cons.1 ht with rfl | hmem
      · rw [foldl_upd_not_mem xs _ t.id hnd.1, update_same]
      · exact ih _ t hmem hnd.2

theorem idToTeam_some (ts : List TeamSection) (t : TeamSection)
    (ht : t ∈ ts) (hnd : (idsOf ts).Nodup) : idToTeam ts t.id = some t :=
  foldl_upd_mem_nodup ts (fun _ => none) t ht hnd

/-- Dependency list of the team a given id resolves to. -/
def depsOfId (ts : List TeamSection) (i : String) : List String :=
  match idToTeam ts i with
  | some t => t.dependsOn
  | none => []

/-- The present (existing-target) dependencies of the team an id resolves
to. -/
def vdepsOf (ts : List TeamSection) (i : String) : List String :=
  (depsOfId ts i).filter (fun d => presentId ts d)

theorem inner_indeg (p : String → Bool) (key : String) :
    ∀ (deps : List String) (m : String → Int) (j : String),
      (deps.foldl (fun m2 dep =>
          if p dep then update m2 key (m2 key + 1) else m2) m) j
        = if j = key then m j + ((deps.filter p).length : Int) else m j := by
  intro deps
  induction deps with
  | nil =>
      intro m j
      by_cases hj : j = key <;> simp [hj]
  | cons d rest ih =>
      intro m j
      show (rest.foldl _ (if p d then update m key (m key + 1) else m)) j = _
      by_cases hp : p d = true
      · rw [if_pos hp, ih (update m key (m key + 1)) j]
        by_cases hj : j = key
        · subst hj
          rw [if_pos rfl, if_pos rfl, update_same]
          simp only [List.filter_cons, hp, if_true, List.length_cons]
          push_cast
          omega
        · rw [if_neg hj, if_neg hj, update_other _ _ _ _ hj]
      · rw [if_neg hp, ih m j]
        simp [List.filter_cons, hp]

theorem outer_indeg (p : String → Bool) :
    ∀ (l : List TeamSection) (m : String → Int) (j : String),
      (l.foldl (fun m2 t =>
          t.dependsOn.foldl (fun m3 dep =>
            if p dep then update m3 t.id (m3 t.id + 1) else m3) m2) m) j
        = m j + (((l.filter (fun t => t.id == j)).map
            (fun t => ((t.dependsOn.filter p).length : Int))).sum) := by
  intro l
  induction l with
  | nil => intro m j; simp
  | cons t rest ih =>
      intro m j
      show (rest.foldl _ (t.dependsOn.foldl _ m)) j = _
      rw [ih _ j, inner_indeg p t.id t.dependsOn m j]
      by_cases hj : j = t.id
      · rw [if_pos hj]
        have hb : (t.id == j) = true := by simp [hj.symm]
        simp only [List.filter_cons, hb, if_true, List.map_cons, List.sum_cons]
        omega
      · rw [if_neg hj]
        have hb : (t.id == j) = false := by
          simp only [beq_eq_false_iff_ne, ne_eq]
          exact fun h2 => hj h2.symm
        simp [List.filter_cons, hb]

theorem buildInDegree_eq (ts : List TeamSection) (j : String) :
    buildInDegree ts j
      = (((ts.filter (fun t => t.id == j)).map
          (fun t => ((t.dependsOn.filter (presentId ts)).length : Int))).sum) := by
  unfold buildInDegree
  rw [outer_indeg (presentId ts) ts (fun _ => 0) j]
  simp

theorem filter_id_eq_single (ts : List TeamSection) (hnd : (idsOf ts).Nodup)
    (u : TeamSection) (hu : u ∈ ts) :
    ts.filter (fun t => t.id == u.id) = [u] := by
  induction ts with
  | nil => cases hu
  | cons x xs ih =>
      simp only [idsOf, List.map_cons, List.nodup_cons] at hnd
      rcases List.mem_cons.1 hu with rfl | hmem
      · simp only [List.filter_cons, beq_self_eq_true, if_true]
        congr 1
        rw [List.filter_eq_nil_iff]
        intro t ht hb
        simp only [beq_iff_eq] at hb
        exact hnd.1 (hb ▸ List.mem_map_of_mem (fun t2 => t2.id) ht)
      · have hne : (x.id == u.id) = false := by
          simp only [beq_eq_false_iff_ne, ne_eq]
          intro h2
          exact hnd.1 (h2 ▸ List.mem_map_of_mem (fun t2 => t2.id) hmem)
        simp only [List.filter_cons, hne, if_false]
        exact ih hnd.2 hmem

theorem vdepsOf_eq (ts : List TeamSection) (hnd : (idsOf ts).Nodup)
    (u : TeamSection) (hu : u ∈ ts) :
    vdepsOf ts u.id = u.dependsOn.filter (presentId ts) := by
  unfold vdepsOf depsOfId
  rw [idToTeam_some ts u hu hnd]

theorem buildInDegree_of_mem (ts : List TeamSection) (hnd : (idsOf ts).Nodup)
    (u : TeamSection) (hu : u ∈ ts) :
    buildInDegree ts u.id = ((vdepsOf ts u.id).length : Int) := by
  rw [buildInDegree_eq, filter_id_eq_single ts hnd u hu, vdepsOf_eq ts hnd u hu]
  simp

theorem inner_down (p : String → Bool) (tid : String) :
    ∀ (deps : List String) (m : String → List String) (u : String),
      (deps.foldl (fun m2 dep =>
          if p dep then update m2 dep (m2 dep ++ [tid]) else m2) m) u
        = m u ++ List.replicate ((deps.filter p).count u) tid := by
  intro deps
  induction deps with
  | nil => intro m u; simp
  | cons d rest ih =>
      intro m u
      show (rest.foldl _ (if p d then update m d (m d ++ [tid]) else m)) u = _
      by_cases hp : p d = true
      · rw [if_pos hp, ih (update m d (m d ++ [tid])) u]
        by_cases hu : u = d
        · subst hu
          rw [update_same]
          simp only [List.filter_cons, hp, if_true, List.count_cons,
            beq_self_eq_true, List.append_assoc]
          congr 1
        · rw [update_other _ _ _ _ hu]
          have hb : (d == u) = false := by
            simp only [beq_eq_false_iff_ne, ne_eq]
            exact fun h2 => hu h2.symm
          simp [List.filter_cons, hp, List.count_cons, hb]
      · rw [if_neg hp, ih m u]
        simp [List.filter_cons, hp]

theorem outer_down (p : String → Bool) :
    ∀ (l : List TeamSection) (m : String → List String) (u : String),
      (l.foldl (fun m2 t =>
          t.dependsOn.foldl (fun m3 dep =>
            if p dep then update m3 dep (m3 dep ++ [t.id]) else m3) m2) m) u
        = m u ++ (l.map (fun t =>
            List.replicate ((t.dependsOn.filter p).count u) t.id)).flatten := by
  intro l
  induction l with
  | nil => intro m u; simp
  | cons t rest ih =>
      intro m u
      show (rest.foldl _ (t.dependsOn.foldl _ m)) u = _
      rw [ih _ u, inner_down p t.id t.dependsOn m u]
      simp [List.flatten_cons, List.append_assoc]

theorem buildDownstream_eq (ts : List TeamSection) (u : String) :
    buildDownstream ts u = (ts.map (fun t =>
      List.replicate ((t.dependsOn.filter (presentId ts)).count u) t.id)).flatten := by
  unfold buildDownstream
  rw [outer_down (presentId ts) ts (fun _ => []) u]
  simp

theorem mem_buildDownstream (ts : List TeamSection) (u j : String)
    (h : j ∈ buildDownstream ts u) : j ∈ idsOf ts := by
  rw [buildDownstream_eq] at h
  rcases List.mem_flatten.1 h with ⟨part, hpart, hj⟩
  rcases List.mem_map.1 hpart with ⟨t, ht, rfl⟩
  rw [List.eq_of_mem_replicate hj]
  exact List.mem_map_of_mem (fun t2 => t2.id) ht

theorem count_flatten_eq {L : List (List String)} (v : String) :
    L.flatten.count v = (L.map (fun l => l.count v)).sum := by
  induction L with
  | nil => rfl
  | cons l rest ih => simp [List.flatten_cons, List.count_append, ih]

theorem sum_map_ite_filter (l : List TeamSection) (q : TeamSection → Bool)
    (f : TeamSection → Nat) :
    (l.map (fun t => if q t then f t else 0)).sum = ((l.filter q).map f).sum := by
  induction l with
  | nil => rfl
  | cons t rest ih =>
      by_cases hq : q t = true <;>
        simp [List.filter_cons, hq, ih]

theorem count_buildDownstream (ts : List TeamSection) (hnd : (idsOf ts).Nodup)
    (w : TeamSection) (hw : w ∈ ts) (u : String) :
    (buildDownstream ts u).count w.id = (vdepsOf ts w.id).count u := by
  rw [buildDownstream_eq, count_flatten_eq, List.map_map]
  have hmap : ∀ t : TeamSection,
      ((List.replicate ((t.dependsOn.filter (presentId ts)).count u) t.id).count w.id)
        = if (t.id == w.id) then (t.dependsOn.filter (presentId ts)).count u else 0 := by
    intro t
    rw [List.count_replicate]
  have : (ts.map (fun t =>
      (List.replicate ((t.dependsOn.filter (presentId ts)).count u) t.id).count w.id)).sum
      = (ts.map (fun t =>
        if (t.id == w.id) then (t.dependsOn.filter (presentId ts)).count u else 0)).sum := by
    congr 1
    exact List.map_congr_left (fun t _ => hmap t)
  rw [show (List.map ((fun l => l.count w.id) ∘ fun t =>
      List.replicate ((t.dependsOn.filter (presentId ts)).count u) t.id) ts)
      = ts.map (fun t =>
        (List.replicate ((t.dependsOn.filter (presentId ts)).count u) t.id).count w.id)
      from rfl, this,
    sum_map_ite_filter ts (fun t => t.id == w.id)
      (fun t => (t.dependsOn.filter (presentId ts)).count u),
    filter_id_eq_single ts hnd w hw, vdepsOf_eq ts hnd w hw]
  simp

theorem length_buildDownstream (ts : List TeamSection) (u : String) :
    (buildDownstream ts u).length
      = (ts.map (fun t => (t.dependsOn.filter (presentId ts)).count u)).sum := by
  rw [buildDownstream_eq, List.length_flatten, List.map_map]
  exact congrArg List.sum (List.map_congr_left (fun t _ => by simp))

/-- Specification of the newly-ready ids one processing step collects. -/
def crNew (ds : List String) (m : String → Int) : List String :=
  match ds with
  | [] => []
  | d :: rest => (if m d - 1 = 0 then [d] else []) ++ crNew rest (update m d (m d - 1))

theorem crNew_cons (d : String) (rest : List String) (m : String → Int) :
    crNew (d :: rest) m
      = (if m d - 1 = 0 then [d] else []) ++ crNew rest (update m d (m d - 1)) := rfl

theorem crFold_fst (ds : List String) :
    ∀ (m : String → Int) (nr0 : List String) (v : String),
      ((ds.foldl (fun acc downID =>
          (update acc.1 downID (acc.1 downID - 1),
            if acc.1 downID - 1 = 0 then acc.2 ++ [downID] else acc.2))
        (m, nr0)).1) v = m v - (ds.count v : Int) := by
  induction ds with
  | nil => intro m nr0 v; simp
  | cons d rest ih =>
      intro m nr0 v
      show ((rest.foldl _ (update m d (m d - 1), _)).1) v = _
      rw [ih (update m d (m d - 1)) _ v]
      by_cases hv : v = d
      · subst hv
        rw [update_same, List.count_cons]
        simp only [beq_self_eq_true, if_true]
        push_cast
        omega
      · rw [update_other _ _ _ _ hv, List.count_cons]
        have hb : (d == v) = false := by
          simp only [beq_eq_false_iff_ne, ne_eq]
          exact fun h2 => hv h2.symm
        rw [hb]
        simp

theorem crFold_snd (ds : List String) :
    ∀ (m : String → Int) (nr0 : List String),
      ((ds.foldl (fun acc downID =>
          (update acc.1 downID (acc.1 downID - 1),
            if acc.1 downID - 1 = 0 then acc.2 ++ [downID] else acc.2))
        (m, nr0)).2) = nr0 ++ crNew ds m := by
  induction ds with
  | nil => intro m nr0; simp [crNew]
  | cons d rest ih =>
      intro m nr0
      show ((rest.foldl _ (update m d (m d - 1), _)).2) = _
      rw [ih (update m d (m d - 1)) _, crNew_cons]
      by_cases h0 : m d - 1 = 0
      · rw [if_pos h0, if_pos h0, List.append_assoc]
      · rw [if_neg h0, if_neg h0]
        simp

theorem collectReady_fst (ds : List String) (m : String → Int) (v : String) :
    (collectReady ds m).1 v = m v - (ds.count v : Int) :=
  crFold_fst ds m [] v

theorem collectReady_snd (ds : List String) (m : String → Int) :
    (collectReady ds m).2 = crNew ds m := by
  have h := crFold_snd ds m []
  simpa using h

theorem crNew_mem (ds : List String) :
    ∀ (m : String → Int) (v : String),
      v ∈ crNew ds m ↔ (0 < m v ∧ m v ≤ (ds.count v : Int)) := by
  induction ds with
  | nil =>
      intro m v
      simp only [crNew, List.not_mem_nil, false_iff, not_and, not_le]
      intro h
      simp only [List.count_nil, Nat.cast_zero]
      omega
  | cons d rest ih =>
      intro m v
      rw [crNew_cons, List.mem_append, ih (update m d (m d - 1)) v]
      by_cases hv : v = d
      · subst hv
        rw [update_same, List.count_cons]
        simp only [beq_self_eq_true, if_true]
        constructor
        · rintro (h | h)
          · split at h
            · rename_i h0
              push_cast
              omega
            · cases h
          · omega
        · intro h
          push_cast at h
          by_cases h0 : m v - 1 = 0
          · left
            rw [if_pos h0]
            exact List.mem_singleton.2 rfl
          · right
            omega
      · rw [update_other _ _ _ _ hv, List.count_cons]
        have hb : (d == v) = false := by
          simp only [beq_eq_false_iff_ne, ne_eq]
          exact fun h2 => hv h2.symm
        rw [hb]
        simp only [Bool.false_eq_true, if_false]
        constructor
        · rintro (h | h)
          · split at h
            · rcases List.mem_singleton.1 h with rfl
              exact absurd rfl hv
            · cases h
          · simpa using h
        · intro h
          right
          simpa using h

theorem crNew_nodup (ds : List String) : ∀ (m : String → Int), (crNew ds m).Nodup := by
  induction ds with
  | nil => intro m; exact List.nodup_nil
  | cons d rest ih =>
      intro m
      rw [crNew_cons]
      by_cases h0 : m d - 1 = 0
      · rw [if_pos h0]
        rw [List.singleton_append, List.nodup_cons]
        refine ⟨?_, ih _⟩
        rw [crNew_mem rest (update m d (m d - 1)) d, update_same]
        intro h
        omega
      · rw [if_neg h0]
        simpa using ih _

theorem crNew_length_le (ds : List String) :
    ∀ (m : String → Int), (crNew ds m).length ≤ ds.length := by
  induction ds with
  | nil => intro m; simp [crNew]
  | cons d rest ih =>
      intro m
      rw [crNew_cons, List.length_append]
      have h2 := ih (update m d (m d - 1))
      by_cases h0 : m d - 1 = 0
      · rw [if_pos h0]
        simp only [List.length_singleton, List.length_cons, List.length_nil]
        omega
      · rw [if_neg h0]
        simp
        omega

theorem crNew_subset (ds : List String) (m : String → Int) (v : String)
    (h : v ∈ crNew ds m) : v ∈ ds := by
  rw [crNew_mem ds m v] at h
  have hlt : (0 : Int) < (ds.count v : Int) := lt_of_lt_of_le h.1 h.2
  have hc : 0 < ds.count v := by exact_mod_cast hlt
  by_contra hmem
  rw [List.count_eq_zero.2 hmem] at hc
  exact Nat.lt_irrefl 0 hc

/-- Remaining enqueue budget of the loop: total downstream length over the
not-yet-processed ids. -/
def capOf (dsMap : String → List String) (allIds processed : List String) : Nat :=
  ((allIds.filter (fun i => decide (i ∉ processed))).map
    (fun i => (dsMap i).length)).sum

theorem sum_filter_remove (f : String → Nat) (p : String → Bool) (u : String) :
    ∀ (us : List String), us.Nodup → u ∈ us → p u = true →
      ((us.filter p).map f).sum
        = f u + ((us.filter (fun i => p i && !(i == u))).map f).sum := by
  intro us
  induction us with
  | nil => intro _ hu; cases hu
  | cons x xs ih =>
      intro hnd hu hp
      rw [List.nodup_cons] at hnd
      rcases List.mem_cons.1 hu with rfl | hmem
      · have hfilter : xs.filter (fun i => p i && !(i == u)) = xs.filter p := by
          apply List.filter_congr
          intro i hi
          have : (i == u) = false := by
            simp only [beq_eq_false_iff_ne, ne_eq]
            intro h2
            exact hnd.1 (h2 ▸ hi)
          rw [this]
          simp
        simp [List.filter_cons, hp, hfilter]
      · have hxu : (x == u) = false := by
          simp only [beq_eq_false_iff_ne, ne_eq]
          intro h2
          exact hnd.1 (h2 ▸ hmem)
        have ihx := ih hnd.2 hmem hp
        by_cases hpx : p x = true
        · have h1 : (p x && !(x == u)) = true := by rw [hpx, hxu]; rfl
          rw [List.filter_cons, List.filter_cons, if_pos hpx, if_pos h1]
          simp only [List.map_cons, List.sum_cons, ihx]
          omega
        · rw [Bool.not_eq_true] at hpx
          have h1 : (p x && !(x == u)) = false := by rw [hpx]; rfl
          rw [List.filter_cons, List.filter_cons, if_neg (by simp [hpx]),
            if_neg (by simp [h1])]
          exact ihx

theorem capOf_step (dsMap : String → List String) (allIds processed : List String)
    (u : String) (hnd : allIds.Nodup) (hu : u ∈ allIds) (hup : u ∉ processed) :
    capOf dsMap allIds processed
      = (dsMap u).length + capOf dsMap allIds (processed ++ [u]) := by
  unfold capOf
  rw [sum_filter_remove (fun i => (dsMap i).length)
    (fun i => decide (i ∉ processed)) u allIds hnd hu (by simp [hup])]
  have hfeq : allIds.filter (fun i => decide (i ∉ processed) && !(i == u))
      = allIds.filter (fun i => decide (i ∉ processed ++ [u])) := by
    apply List.filter_congr
    intro i _
    by_cases hiu : i = u
    · subst hiu
      simp [hup]
    · by_cases hip : i ∈ processed <;> simp [hip, hiu]
  rw [hfeq]

theorem kahnLoop_drain (idMap : String → Option TeamSection)
    (dsMap : String → List String) (allIds : List String) (hnd : allIds.Nodup)
    (hds : ∀ i j, j ∈ dsMap i → j ∈ allIds) :
    ∀ (fuel : Nat) (queue : List String) (inDeg : String → Int)
      (processed : List String) (sorted : List TeamSection),
      (∀ i ∈ queue, i ∈ allIds) →
      queue.length + capOf dsMap allIds processed ≤ fuel →
      (kahnLoop idMap dsMap fuel queue inDeg processed sorted).queue = [] := by
  intro fuel
  induction fuel with
  | zero =>
      intro queue inDeg processed sorted _ hfuel
      have : queue.length = 0 := by omega
      rw [List.length_eq_zero.1 this]
      rfl
  | succ k ih =>
      intro queue inDeg processed sorted hq hfuel
      cases queue with
      | nil => rfl
      | cons u rest =>
          rw [kahnLoop]
          split
          · refine ih rest inDeg processed sorted
              (fun i hi => hq i (List.mem_cons_of_mem u hi)) ?_
            rw [List.length_cons] at hfuel
            omega
          · rename_i hnp
            refine ih _ _ _ _ ?_ ?_
            · intro i hi
              rcases List.mem_append.1 hi with hi | hi
              · exact hq i (List.mem_cons_of_mem u hi)
              · have hmem : i ∈ (collectReady (dsMap u) inDeg).2 :=
                  (sortStrings_perm _).mem_iff.1 hi
                rw [collectReady_snd] at hmem
                exact hds u i (crNew_subset _ _ _ hmem)
            · have hucap := capOf_step dsMap allIds processed u hnd
                (hq u (List.mem_cons_self u rest)) hnp
              have hlen : (sortStrings (collectReady (dsMap u) inDeg).2).length
                  ≤ (dsMap u).length := by
                rw [(sortStrings_perm _).length_eq, collectReady_snd]
                exact crNew_length_le _ _
              rw [List.length_append]
              rw [List.length_cons] at hfuel
              omega

/-! ### Kahn loop invariants under distinct ids -/

theorem idToTeam_isSome (ts : List TeamSection) (i : String)
    (h : i ∈ idsOf ts) : (idToTeam ts i).isSome = true :=
  foldl_upd_mem_isSome ts (fun _ => none) i h

theorem mem_idsOf (ts : List TeamSection) (v : String) (h : v ∈ idsOf ts) :
    ∃ w ∈ ts, w.id = v := by
  rcases List.mem_map.1 h with ⟨w, hw, hwid⟩
  exact ⟨w, hw, hwid⟩

theorem count_downstream_vdeps (ts : List TeamSection) (hnd : (idsOf ts).Nodup)
    (u v : String) (hv : v ∈ idsOf ts) :
    (buildDownstream ts u).count v = (vdepsOf ts v).count u := by
  rcases mem_idsOf ts v hv with ⟨w, hw, rfl⟩
  exact count_buildDownstream ts hnd w hw u

theorem length_filter_split (q : String → Bool) (u : String) (hq : q u = true) :
    ∀ l : List String, (l.filter q).length
      = (l.filter (fun d => q d && !(d == u))).length + l.count u := by
  intro l
  induction l with
  | nil => rfl
  | cons d rest ih =>
      by_cases hdu : d = u
      · subst hdu
        rw [List.filter_cons, List.filter_cons, if_pos hq, if_neg (by simp),
          List.length_cons, List.count_cons]
        simp only [beq_self_eq_true, if_true]
        omega
      · have hdu2 : (d == u) = false := by simp [hdu]
        by_cases hqd : q d = true
        · rw [List.filter_cons, List.filter_cons, if_pos hqd,
            if_pos (by simp [hqd, hdu2]), List.length_cons, List.length_cons,
            List.count_cons]
          simp only [hdu2, Bool.false_eq_true, if_false]
          omega
        · rw [Bool.not_eq_true] at hqd
          rw [List.filter_cons, List.filter_cons, if_neg (by simp [hqd]),
            if_neg (by simp [hqd]), List.count_cons]
          simp only [hdu2, Bool.false_eq_true, if_false]
          omega

theorem append_singleton_split {α : Type} {p1 p2 l : List α} {i u : α}
    (h : p1 ++ i :: p2 = l ++ [u]) :
    (i = u ∧ p1 = l ∧ p2 = []) ∨ (∃ p2b, p2 = p2b ++ [u] ∧ l = p1 ++ i :: p2b) := by
  rcases List.eq_nil_or_concat p2 with rfl | ⟨as, a, rfl⟩
  · have h2 := @List.append_inj' α p1 [i] l [u] h rfl
    exact Or.inl ⟨(List.cons_eq_cons.1 h2.2).1, h2.1, rfl⟩
  · rw [List.concat_eq_append] at h
    have hassoc : p1 ++ i :: (as ++ [a]) = (p1 ++ i :: as) ++ [a] := by simp
    rw [hassoc] at h
    have h2 := @List.append_inj' α (p1 ++ i :: as) [a] l [u] h rfl
    right
    refine ⟨as, ?_, h2.1.symm⟩
    rw [List.concat_eq_append, (List.cons_eq_cons.1 h2.2).1]

theorem filterMap_map_id (ts : List TeamSection) :
    ∀ (L : List String), (∀ i ∈ L, i ∈ idsOf ts) →
      ((L.filterMap (idToTeam ts)).map (fun t => t.id)) = L := by
  intro L
  induction L with
  | nil => intro _; rfl
  | cons i rest ih =>
      intro hsub
      have hi : i ∈ idsOf ts := hsub i (List.mem_cons_self _ _)
      obtain ⟨t0, ht0⟩ := Option.isSome_iff_exists.1 (idToTeam_isSome ts i hi)
      rw [List.filterMap_cons, ht0]
      simp only [List.map_cons]
      rw [ih (fun j hj => hsub j (List.mem_cons_of_mem _ hj)),
        idToTeam_id ts i t0 ht0]

theorem filterMap_split (ts : List TeamSection) :
    ∀ (L : List String) (l1 l2 : List TeamSection) (t : TeamSection),
      (∀ i ∈ L, i ∈ idsOf ts) →
      L.filterMap (idToTeam ts) = l1 ++ t :: l2 →
      ∃ p1 i p2, L = p1 ++ i :: p2 ∧ idToTeam ts i = some t
        ∧ l1 = p1.filterMap (idToTeam ts) ∧ (∀ j ∈ p1, j ∈ idsOf ts) := by
  intro L
  induction L with
  | nil =>
      intro l1 l2 t _ h
      simp only [List.filterMap_nil] at h
      rcases List.append_eq_nil.1 h.symm with ⟨_, h2⟩
      cases h2
  | cons i rest ih =>
      intro l1 l2 t hsub h
      have hi : i ∈ idsOf ts := hsub i (List.mem_cons_self _ _)
      obtain ⟨t0, ht0⟩ := Option.isSome_iff_exists.1 (idToTeam_isSome ts i hi)
      rw [List.filterMap_cons, ht0] at h
      cases l1 with
      | nil =>
          simp only [List.nil_append] at h
          refine ⟨[], i, rest, rfl, ?_, rfl, by simp⟩
          rw [ht0, (List.cons_eq_cons.1 h).1]
      | cons x l1b =>
          rw [List.cons_append] at h
          obtain ⟨hx, hrest⟩ := List.cons_eq_cons.1 h
          obtain ⟨p1, j, p2, hL, hj, hl1, hp1sub⟩ :=
            ih l1b l2 t (fun j hj => hsub j (List.mem_cons_of_mem _ hj)) hrest
          refine ⟨i :: p1, j, p2, by rw [hL, List.cons_append], hj, ?_, ?_⟩
          · rw [List.filterMap_cons, ht0, ← hl1, hx]
          · intro j2 hj2
            rcases List.mem_cons.1 hj2 with rfl | h2
            · exact hi
            · exact hp1sub j2 h2

/-- The invariants the Kahn main loop preserves on inputs with distinct
ids. -/
def KahnInv (ts : List TeamSection) (R : KahnResult) : Prop :=
  (∀ i ∈ R.processed, i ∈ idsOf ts) ∧ R.processed.Nodup ∧
  R.sorted = R.processed.filterMap (idToTeam ts) ∧
  (∀ i ∈ idsOf ts, i ∉ R.processed → R.inDeg i
      = (((vdepsOf ts i).filter (fun d => decide (d ∉ R.processed))).length : Int)) ∧
  (∀ i ∈ idsOf ts, i ∉ R.processed → R.inDeg i = 0 → i ∈ R.queue) ∧
  (∀ p1 i p2, R.processed = p1 ++ i :: p2 → ∀ d ∈ vdepsOf ts i, d ∈ p1)

theorem kahn_invariants (ts : List TeamSection) (hnd : (idsOf ts).Nodup) :
    ∀ (fuel : Nat) (queue : List String) (inDeg : String → Int)
      (processed : List String) (sorted : List TeamSection),
      (∀ i ∈ queue, i ∈ idsOf ts) →
      (∀ i ∈ processed, i ∈ idsOf ts) →
      processed.Nodup →
      sorted = processed.filterMap (idToTeam ts) →
      (∀ i ∈ idsOf ts, i ∉ processed → inDeg i
          = (((vdepsOf ts i).filter (fun d => decide (d ∉ processed))).length : Int)) →
      (∀ i ∈ idsOf ts, i ∉ processed → inDeg i = 0 → i ∈ queue) →
      (∀ i ∈ queue, i ∉ processed → inDeg i = 0) →
      (∀ p1 i p2, processed = p1 ++ i :: p2 → ∀ d ∈ vdepsOf ts i, d ∈ p1) →
      KahnInv ts (kahnLoop (idToTeam ts) (buildDownstream ts) fuel queue inDeg
        processed sorted) := by
  intro fuel
  induction fuel with
  | zero =>
      intro queue inDeg processed sorted h1 h2 h3 h4 h5 h6 h7 h8
      exact ⟨h2, h3, h4, h5, h6, h8⟩
  | succ k ih =>
      intro queue inDeg processed sorted h1 h2 h3 h4 h5 h6 h7 h8
      cases queue with
      | nil => exact ⟨h2, h3, h4, h5, h6, h8⟩
      | cons u rest =>
          rw [kahnLoop]
          split
          · rename_i hup
            refine ih rest inDeg processed sorted
              (fun i hi => h1 i (List.mem_cons_of_mem u hi)) h2 h3 h4 h5 ?_ ?_ h8
            · intro i hi hipr hideg
              rcases List.mem_cons.1 (h6 i hi hipr hideg) with rfl | hir
              · exact absurd hup hipr
              · exact hir
            · intro i hi
              exact h7 i (List.mem_cons_of_mem u hi)
          · rename_i hnp
            have hu_ids : u ∈ idsOf ts := h1 u (List.mem_cons_self u rest)
            have hdeg_u : inDeg u = 0 := h7 u (List.mem_cons_self u rest) hnp
            have hfil_u : ((vdepsOf ts u).filter
                (fun d => decide (d ∉ processed))) = [] := by
              have h5u := h5 u hu_ids hnp
              rw [hdeg_u] at h5u
              have hlen : (((vdepsOf ts u).filter
                  (fun d => decide (d ∉ processed))).length) = 0 := by
                exact_mod_cast h5u.symm
              exact List.length_eq_zero.1 hlen
            have hdeps_u : ∀ d ∈ vdepsOf ts u, d ∈ processed := by
              intro d hd
              by_contra hdp
              have hmem : d ∈ (vdepsOf ts u).filter
                  (fun d => decide (d ∉ processed)) :=
                List.mem_filter.2 ⟨hd, by simp [hdp]⟩
              rw [hfil_u] at hmem
              cases hmem
            obtain ⟨tu, htu⟩ :=
              Option.isSome_iff_exists.1 (idToTeam_isSome ts u hu_ids)
            show KahnInv ts (kahnLoop (idToTeam ts) (buildDownstream ts) k
              (rest ++ sortStrings (collectReady (buildDownstream ts u) inDeg).2)
              (collectReady (buildDownstream ts u) inDeg).1
              (processed ++ [u])
              (sorted ++ ((idToTeam ts u).map (fun t => [t])).getD []))
            refine ih _ _ _ _ ?_ ?_ ?_ ?_ ?_ ?_ ?_ ?_
            · intro i hi
              rcases List.mem_append.1 hi with hir | hinr
              · exact h1 i (List.mem_cons_of_mem u hir)
              · have hicr : i ∈ crNew (buildDownstream ts u) inDeg := by
                  have := (sortStrings_perm _).mem_iff.1 hinr
                  rwa [collectReady_snd] at this
                exact mem_buildDownstream ts u i (crNew_subset _ _ _ hicr)
            · intro i hi
              rcases List.mem_append.1 hi with hir | hiu
              · exact h2 i hir
              · rw [List.mem_singleton.1 hiu]
                exact hu_ids
            · rw [List.nodup_append]
              refine ⟨h3, List.nodup_singleton u, ?_⟩
              intro a ha hau
              rw [List.mem_singleton.1 hau] at ha
              exact hnp ha
            · rw [List.filterMap_append, ← h4, htu]
              simp [List.filterMap_cons, htu]
            · intro v hv hvp
              have hvne : v ≠ u := by
                intro h
                exact hvp (h ▸ List.mem_append_right _ (List.mem_singleton.2 rfl))
              have hvproc : v ∉ processed := fun h => hvp (List.mem_append_left _ h)
              rw [collectReady_fst, count_downstream_vdeps ts hnd u v hv]
              have hold := h5 v hv hvproc
              have hsplit := length_filter_split
                (fun d => decide (d ∉ processed)) u (by simp [hnp]) (vdepsOf ts v)
              have hfeq : (vdepsOf ts v).filter
                    (fun d => decide (d ∉ processed) && !(d == u))
                  = (vdepsOf ts v).filter
                    (fun d => decide (d ∉ processed ++ [u])) := by
                apply List.filter_congr
                intro d _
                by_cases hdu : d = u
                · subst hdu
                  simp [hnp]
                · by_cases hdp : d ∈ processed <;> simp [hdp, hdu]
              rw [hfeq] at hsplit
              rw [hold, hsplit]
              push_cast
              omega
            · intro v hv hvp hdeg
              have hvne : v ≠ u := by
                intro h
                exact hvp (h ▸ List.mem_append_right _ (List.mem_singleton.2 rfl))
              have hvproc : v ∉ processed := fun h => hvp (List.mem_append_left _ h)
              rw [collectReady_fst] at hdeg
              by_cases h0 : inDeg v = 0
              · rcases List.mem_cons.1 (h6 v hv hvproc h0) with rfl | hvr
                · exact absurd rfl hvne
                · exact List.mem_append_left _ hvr
              · refine List.mem_append_right _ ?_
                have h5v := h5 v hv hvproc
                have hpos : 0 < inDeg v := by omega
                have hmemnr : v ∈ crNew (buildDownstream ts u) inDeg := by
                  rw [crNew_mem]
                  exact ⟨hpos, by omega⟩
                refine (sortStrings_perm _).mem_iff.2 ?_
                rw [collectReady_snd]
                exact hmemnr
            · intro i hi hip
              have hiu : i ≠ u := by
                intro h
                exact hip (h ▸ List.mem_append_right _ (List.mem_singleton.2 rfl))
              have hipr : i ∉ processed := fun h => hip (List.mem_append_left _ h)
              rw [collectReady_fst]
              rcases List.mem_append.1 hi with hir | hinr
              · have hideg : inDeg i = 0 := h7 i (List.mem_cons_of_mem u hir) hipr
                have hiids : i ∈ idsOf ts := h1 i (List.mem_cons_of_mem u hir)
                have hcnt : (buildDownstream ts u).count i = 0 := by
                  rw [count_downstream_vdeps ts hnd u i hiids]
                  by_contra hc
                  have hcpos : 0 < (vdepsOf ts i).count u := Nat.pos_of_ne_zero hc
                  have humem : u ∈ vdepsOf ts i := by
                    by_contra hum
                    rw [List.count_eq_zero.2 hum] at hcpos
                    exact Nat.lt_irrefl 0 hcpos
                  have hufil : u ∈ (vdepsOf ts i).filter
                      (fun d => decide (d ∉ processed)) :=
                    List.mem_filter.2 ⟨humem, by simp [hnp]⟩
                  have hlenpos : 0 < ((vdepsOf ts i).filter
                      (fun d => decide (d ∉ processed))).length :=
                    List.length_pos_of_mem hufil
                  have h5i := h5 i hiids hipr
                  rw [h5i] at hideg
                  omega
                rw [hcnt, hideg]
                simp
              · have hicr : i ∈ crNew (buildDownstream ts u) inDeg := by
                  have := (sortStrings_perm _).mem_iff.1 hinr
                  rwa [collectReady_snd] at this
                have hiids : i ∈ idsOf ts :=
                  mem_buildDownstream ts u i (crNew_subset _ _ _ hicr)
                have hbnd := (crNew_mem _ inDeg i).1 hicr
                have h5i := h5 i hiids hipr
                have hcle : (buildDownstream ts u).count i
                    ≤ ((vdepsOf ts i).filter
                      (fun d => decide (d ∉ processed))).length := by
                  rw [count_downstream_vdeps ts hnd u i hiids]
                  calc (vdepsOf ts i).count u
                      = ((vdepsOf ts i).filter
                          (fun d => decide (d ∉ processed))).count u :=
                        (List.count_filter (by simp [hnp])).symm
                    _ ≤ _ := List.count_le_length _ _
                omega
            · intro p1 i p2 hsplit d hd
              rcases append_singleton_split hsplit.symm with
                ⟨hiu, hp1, hp2⟩ | ⟨p2b, hp2, hLp⟩
              · subst hiu
                subst hp1
                exact hdeps_u d hd
              · exact h8 p1 i p2b hLp d hd

/-! ### The Kahn call sortByDAGTeams makes, and its invariants -/

theorem buildInDegree_not_mem (ts : List TeamSection) (v : String)
    (hv : v ∉ idsOf ts) : buildInDegree ts v = 0 := by
  rw [buildInDegree_eq]
  have hfil : ts.filter (fun t => t.id == v) = [] := by
    rw [List.filter_eq_nil_iff]
    intro t ht hb
    exact hv (beq_iff_eq.1 hb ▸ List.mem_map_of_mem (fun t2 => t2.id) ht)
  rw [hfil]
  rfl

theorem sum_map_add_str (f g : String → Nat) :
    ∀ l : List String, (l.map (fun i => f i + g i)).sum = (l.map f).sum + (l.map g).sum := by
  intro l
  induction l with
  | nil => rfl
  | cons x xs ih =>
      simp only [List.map_cons, List.sum_cons, ih]
      omega

theorem sum_map_add_ts (f g : TeamSection → Nat) :
    ∀ l : List TeamSection, (l.map (fun t => f t + g t)).sum = (l.map f).sum + (l.map g).sum := by
  intro l
  induction l with
  | nil => rfl
  | cons x xs ih =>
      simp only [List.map_cons, List.sum_cons, ih]
      omega

theorem sum_ind_le_one : ∀ (ids : List String), ids.Nodup → ∀ (x : String),
    (ids.map (fun i => if (x == i) then 1 else 0)).sum ≤ 1 := by
  intro ids
  induction ids with
  | nil => intro _ x; exact Nat.zero_le 1
  | cons i rest ih =>
      intro hnd x
      rw [List.nodup_cons] at hnd
      simp only [List.map_cons, List.sum_cons]
      by_cases hix : (x == i) = true
      · have hzero : (rest.map (fun j => if (x == j) then 1 else 0)).sum = 0 := by
          apply List.sum_eq_zero
          intro y hy
          rcases List.mem_map.1 hy with ⟨j, hj, rfl⟩
          have hjx : (x == j) = false := by
            simp only [beq_eq_false_iff_ne, ne_eq]
            intro h
            exact hnd.1 (by rw [← beq_iff_eq.1 hix, h]; exact hj)
          rw [hjx]
          simp
        rw [hzero, hix]
        simp
      · rw [Bool.not_eq_true] at hix
        have := ih hnd.2 x
        simp only [hix, Bool.false_eq_true, if_false]
        omega

theorem sum_counts_le (ids : List String) (hnd : ids.Nodup) :
    ∀ l : List String, (ids.map (fun i => l.count i)).sum ≤ l.length := by
  intro l
  induction l with
  | nil =>
      have hz : (ids.map (fun i => ([] : List String).count i)).sum = 0 := by
        apply List.sum_eq_zero
        intro y hy
        rcases List.mem_map.1 hy with ⟨j, _, rfl⟩
        exact List.count_nil j
      rw [hz, List.length_nil]
  | cons x xs ih =>
      have hcnt : ids.map (fun i => (x :: xs).count i)
          = ids.map (fun i => xs.count i + if (x == i) then 1 else 0) := by
        apply List.map_congr_left
        intro i _
        rw [List.count_cons]
      rw [hcnt,
        sum_map_add_str (fun i => xs.count i) (fun i => if (x == i) then 1 else 0) ids,
        List.length_cons]
      have h1 := sum_ind_le_one ids hnd x
      omega

theorem sum_sum_comm (f : String → TeamSection → Nat) :
    ∀ (is2 : List String) (ts : List TeamSection),
      (is2.map (fun i => (ts.map (fun t => f i t)).sum)).sum
        = (ts.map (fun t => (is2.map (fun i => f i t)).sum)).sum := by
  intro is2
  induction is2 with
  | nil =>
      intro ts
      symm
      apply List.sum_eq_zero
      intro y hy
      rcases List.mem_map.1 hy with ⟨t, _, rfl⟩
      rfl
  | cons i rest ih =>
      intro ts
      simp only [List.map_cons, List.sum_cons, ih]
      rw [← sum_map_add_ts (fun t => f i t) (fun t => (rest.map (fun j => f j t)).sum) ts]

theorem capOf_init_le (ts : List TeamSection) (hnd : (idsOf ts).Nodup) :
    capOf (buildDownstream ts) (idsOf ts) [] ≤ totalEdges ts := by
  unfold capOf
  have hfe : (idsOf ts).filter (fun i => decide (i ∉ ([] : List String))) = idsOf ts := by
    rw [List.filter_eq_self]
    intro a _
    simp
  rw [hfe]
  have h1 : (idsOf ts).map (fun i => (buildDownstream ts i).length)
      = (idsOf ts).map (fun i =>
          (ts.map (fun t => (t.dependsOn.filter (presentId ts)).count i)).sum) :=
    List.map_congr_left (fun i _ => length_buildDownstream ts i)
  rw [h1, sum_sum_comm (fun i t => (t.dependsOn.filter (presentId ts)).count i) (idsOf ts) ts]
  unfold totalEdges validDeps
  exact List.sum_le_sum (fun t _ => sum_counts_le (idsOf ts) hnd _)

/-- The initial ready queue of SortByDAG: zero-in-degree ids of the input,
in input order, then sorted. -/
def queue0Of (ts : List TeamSection) : List String :=
  sortStrings ((ts.filter (fun t => buildInDegree ts t.id = 0)).map (fun t => t.id))

/-- The Kahn main-loop run sortByDAGTeams performs (for any input; on inputs
of length at most 1 sortByDAGTeams short-circuits and never consults it). -/
def kahnRun (ts : List TeamSection) : KahnResult :=
  kahnLoop (idToTeam ts) (buildDownstream ts)
    ((queue0Of ts).length + totalEdges ts + 1) (queue0Of ts) (buildInDegree ts) [] []

theorem sortByDAGTeams_eq (ts : List TeamSection) (h : ¬ ts.length ≤ 1) :
    sortByDAGTeams ts = (kahnRun ts).sorted
      ++ ts.filter (fun t => !(decide (t.id ∈ (kahnRun ts).processed))) := by
  unfold sortByDAGTeams kahnRun queue0Of
  rw [if_neg h]

theorem queue0_sub (ts : List TeamSection) : ∀ i ∈ queue0Of ts, i ∈ idsOf ts := by
  intro i hi
  have hmem := (sortStrings_perm _).mem_iff.1 hi
  rcases List.mem_map.1 hmem with ⟨t, ht, rfl⟩
  exact List.mem_map_of_mem (fun t2 => t2.id) (List.mem_filter.1 ht).1

theorem queue0_indeg (ts : List TeamSection) :
    ∀ i ∈ queue0Of ts, buildInDegree ts i = 0 := by
  intro i hi
  have hmem := (sortStrings_perm _).mem_iff.1 hi
  rcases List.mem_map.1 hmem with ⟨t, ht, rfl⟩
  exact of_decide_eq_true (List.mem_filter.1 ht).2

theorem queue0_mem (ts : List TeamSection) (i : String) (hi : i ∈ idsOf ts)
    (h0 : buildInDegree ts i = 0) : i ∈ queue0Of ts := by
  rcases mem_idsOf ts i hi with ⟨t, ht, rfl⟩
  refine (sortStrings_perm _).mem_iff.2 ?_
  have hmemf : t ∈ ts.filter (fun t2 => decide (buildInDegree ts t2.id = 0)) :=
    List.mem_filter.2 ⟨ht, decide_eq_true h0⟩
  exact List.mem_map_of_mem (fun t2 => t2.id) hmemf

theorem kahnRun_inv (ts : List TeamSection) (hnd : (idsOf ts).Nodup) :
    KahnInv ts (kahnRun ts) := by
  show KahnInv ts (kahnLoop (idToTeam ts) (buildDownstream ts)
    ((queue0Of ts).length + totalEdges ts + 1) (queue0Of ts) (buildInDegree ts) [] [])
  apply kahn_invariants ts hnd
  · exact queue0_sub ts
  · intro i hi
    cases hi
  · exact List.nodup_nil
  · rfl
  · intro i hi _
    rcases mem_idsOf ts i hi with ⟨t, ht, rfl⟩
    rw [buildInDegree_of_mem ts hnd t ht]
    have hfe : (vdepsOf ts t.id).filter (fun d => decide (d ∉ ([] : List String)))
        = vdepsOf ts t.id := by
      rw [List.filter_eq_self]
      intro a _
      simp
    rw [hfe]
  · intro i hi _ h0
    exact queue0_mem ts i hi h0
  · intro i hi _
    exact queue0_indeg ts i hi
  · intro p1 i p2 hsplit d hd
    rcases List.append_eq_nil.1 hsplit.symm with ⟨_, h2⟩
    cases h2

theorem kahnRun_drained (ts : List TeamSection) (hnd : (idsOf ts).Nodup) :
    (kahnRun ts).queue = [] := by
  show (kahnLoop (idToTeam ts) (buildDownstream ts)
    ((queue0Of ts).length + totalEdges ts + 1) (queue0Of ts) (buildInDegree ts) [] []).queue = []
  apply kahnLoop_drain (idToTeam ts) (buildDownstream ts) (idsOf ts) hnd
    (fun i j hj => mem_buildDownstream ts i j hj) _ _ _ _ _ (queue0_sub ts)
  have hcap := capOf_init_le ts hnd
  omega

/-! ### Acyclicity, completeness and the output permutation -/

/-- The spec's notion of an acyclic dependency graph, in finite form: every
nonempty subset of the ids has a member none of whose existing dependencies
lies in the subset (equivalently, no dependency cycle among existing
edges). -/
def acyclicTeams (ts : List TeamSection) : Bool :=
  (idsOf ts).sublists.all (fun S =>
    S.isEmpty || S.any (fun i => (vdepsOf ts i).all (fun d => !(decide (d ∈ S)))))

theorem vdepsOf_mem_ids (ts : List TeamSection) (i d : String)
    (hd : d ∈ vdepsOf ts i) : d ∈ idsOf ts := by
  unfold vdepsOf at hd
  exact (presentId_iff ts d).1 (List.mem_filter.1 hd).2

theorem kahnRun_complete (ts : List TeamSection) (hnd : (idsOf ts).Nodup)
    (hac : acyclicTeams ts = true) :
    ∀ i ∈ idsOf ts, i ∈ (kahnRun ts).processed := by
  by_contra hcon
  push_neg at hcon
  obtain ⟨i0, hi0, hi0p⟩ := hcon
  have hU0 : i0 ∈ (idsOf ts).filter (fun i => decide (i ∉ (kahnRun ts).processed)) :=
    List.mem_filter.2 ⟨hi0, decide_eq_true hi0p⟩
  have hUsub : ((idsOf ts).filter (fun i => decide (i ∉ (kahnRun ts).processed)))
      ∈ (idsOf ts).sublists :=
    List.mem_sublists.2 (List.filter_sublist _)
  have hS := List.all_eq_true.1 hac _ hUsub
  rw [Bool.or_eq_true] at hS
  rcases hS with hemp | hany
  · rw [List.isEmpty_iff] at hemp
    rw [hemp] at hU0
    cases hU0
  · rw [List.any_eq_true] at hany
    obtain ⟨u, hu, hudeps⟩ := hany
    rw [List.all_eq_true] at hudeps
    have huids : u ∈ idsOf ts := (List.mem_filter.1 hu).1
    have hup : u ∉ (kahnRun ts).processed :=
      of_decide_eq_true (List.mem_filter.1 hu).2
    have hdeps : ∀ d ∈ vdepsOf ts u, d ∈ (kahnRun ts).processed := by
      intro d hd
      by_contra hdp
      have hdU : d ∈ (idsOf ts).filter (fun i => decide (i ∉ (kahnRun ts).processed)) :=
        List.mem_filter.2 ⟨vdepsOf_mem_ids ts u d hd, decide_eq_true hdp⟩
      have h2 := hudeps d hd
      rw [decide_eq_true hdU] at h2
      simp at h2
    obtain ⟨_, _, _, h5, h6, _⟩ := kahnRun_inv ts hnd
    have hfil : ((vdepsOf ts u).filter
        (fun d => decide (d ∉ (kahnRun ts).processed))) = [] := by
      rw [List.filter_eq_nil_iff]
      intro d hd hdec
      exact absurd (hdeps d hd) (of_decide_eq_true hdec)
    have hdeg := h5 u huids hup
    rw [hfil] at hdeg
    have hq := h6 u huids hup (by rw [hdeg]; rfl)
    rw [kahnRun_drained ts hnd] at hq
    cases hq

theorem kahnRun_tail_nil (ts : List TeamSection) (hnd : (idsOf ts).Nodup)
    (hac : acyclicTeams ts = true) :
    ts.filter (fun t => !(decide (t.id ∈ (kahnRun ts).processed))) = [] := by
  rw [List.filter_eq_nil_iff]
  intro t ht hb
  have hmem := kahnRun_complete ts hnd hac t.id
    (List.mem_map_of_mem (fun t2 => t2.id) ht)
  rw [decide_eq_true hmem] at hb
  cases hb

theorem filterMap_perm_filter (ts : List TeamSection) (hnd : (idsOf ts).Nodup)
    (L : List String) (hLnd : L.Nodup) (hLsub : ∀ i ∈ L, i ∈ idsOf ts) :
    (L.filterMap (idToTeam ts)).Perm
      (ts.filter (fun t => decide (t.id ∈ L))) := by
  have hfmnd : (L.filterMap (idToTeam ts)).Nodup := by
    have hmap : ((L.filterMap (idToTeam ts)).map (fun t => t.id)).Nodup := by
      rw [filterMap_map_id ts L hLsub]
      exact hLnd
    exact hmap.of_map _
  have hts_nd : ts.Nodup := hnd.of_map _
  refine (List.perm_ext_iff_of_nodup hfmnd (hts_nd.filter _)).2 ?_
  intro t
  rw [List.mem_filter]
  constructor
  · intro h
    rcases List.mem_filterMap.1 h with ⟨i, hiL, hit⟩
    refine ⟨idToTeam_mem ts i t hit, ?_⟩
    rw [idToTeam_id ts i t hit]
    exact decide_eq_true hiL
  · rintro ⟨hts, hdec⟩
    exact List.mem_filterMap.2 ⟨t.id, of_decide_eq_true hdec, idToTeam_some ts t hts hnd⟩

theorem sortByDAG_perm (ts : List TeamSection) (hnd : (idsOf ts).Nodup) :
    (sortByDAGTeams ts).Perm ts := by
  by_cases hlen : ts.length ≤ 1
  · have heq : sortByDAGTeams ts = ts := by
      unfold sortByDAGTeams
      rw [if_pos hlen]
    rw [heq]
  · rw [sortByDAGTeams_eq ts hlen]
    obtain ⟨hpsub, hpnd, hsorted, _, _, _⟩ := kahnRun_inv ts hnd
    have hfront : (kahnRun ts).sorted.Perm
        (ts.filter (fun t => decide (t.id ∈ (kahnRun ts).processed))) := by
      rw [hsorted]
      exact filterMap_perm_filter ts hnd (kahnRun ts).processed hpnd hpsub
    exact (hfront.append_right _).trans
      (List.filter_append_perm (fun t => decide (t.id ∈ (kahnRun ts).processed)) ts)

theorem sorted_mem_processed (ts : List TeamSection) (hnd : (idsOf ts).Nodup)
    (t : TeamSection) (ht : t ∈ (kahnRun ts).sorted) :
    t.id ∈ (kahnRun ts).processed := by
  obtain ⟨_, _, hsorted, _, _, _⟩ := kahnRun_inv ts hnd
  rw [hsorted] at ht
  rcases List.mem_filterMap.1 ht with ⟨i, hip, hit⟩
  rw [idToTeam_id ts i t hit]
  exact hip

theorem sortByDAG_idem (ts : List TeamSection) (hnd : (idsOf ts).Nodup)
    (hcongr : kahnRun (sortByDAGTeams ts) = kahnRun ts) :
    sortByDAGTeams (sortByDAGTeams ts) = sortByDAGTeams ts := by
  by_cases hlen : ts.length ≤ 1
  · have heq : sortByDAGTeams ts = ts := by
      unfold sortByDAGTeams
      rw [if_pos hlen]
    rw [heq, heq]
  · have hperm : (sortByDAGTeams ts).Perm ts := sortByDAG_perm ts hnd
    have hlen2 : ¬ (sortByDAGTeams ts).length ≤ 1 := by
      rw [hperm.length_eq]
      exact hlen
    rw [sortByDAGTeams_eq (sortByDAGTeams ts) hlen2, hcongr,
      sortByDAGTeams_eq ts hlen]
    congr 1
    rw [List.filter_append]
    have h1 : (kahnRun ts).sorted.filter
        (fun t => !(decide (t.id ∈ (kahnRun ts).processed))) = [] := by
      rw [List.filter_eq_nil_iff]
      intro t ht hb
      rw [decide_eq_true (sorted_mem_processed ts hnd t ht)] at hb
      cases hb
    have h2 : (ts.filter (fun t => !(decide (t.id ∈ (kahnRun ts).processed)))).filter
          (fun t => !(decide (t.id ∈ (kahnRun ts).processed)))
        = ts.filter (fun t => !(decide (t.id ∈ (kahnRun ts).processed))) := by
      rw [List.filter_eq_self]
      intro t ht
      exact (List.mem_filter.1 ht).2
    rw [h1, h2, List.nil_append]

/-! ### Input-order independence of the Kahn run (distinct ids) -/

theorem idsOf_perm (ts1 ts2 : List TeamSection) (h : ts1.Perm ts2) :
    (idsOf ts1).Perm (idsOf ts2) := by
  unfold idsOf
  exact h.map (fun t => t.id)

theorem idsOf_nodup_perm (ts1 ts2 : List TeamSection) (h : ts1.Perm ts2)
    (hnd : (idsOf ts1).Nodup) : (idsOf ts2).Nodup :=
  (idsOf_perm ts1 ts2 h).nodup_iff.1 hnd

theorem mem_idsOf_perm (ts1 ts2 : List TeamSection) (h : ts1.Perm ts2)
    (i : String) (hi : i ∈ idsOf ts2) : i ∈ idsOf ts1 :=
  (idsOf_perm ts1 ts2 h).mem_iff.2 hi

theorem idToTeam_perm (ts1 ts2 : List TeamSection) (h : ts1.Perm ts2)
    (hnd : (idsOf ts1).Nodup) (i : String) : idToTeam ts1 i = idToTeam ts2 i := by
  have hnd2 : (idsOf ts2).Nodup := idsOf_nodup_perm ts1 ts2 h hnd
  by_cases hi : i ∈ idsOf ts1
  · rcases mem_idsOf ts1 i hi with ⟨t, ht, rfl⟩
    rw [idToTeam_some ts1 t ht hnd, idToTeam_some ts2 t (h.mem_iff.1 ht) hnd2]
  · rw [idToTeam_none ts1 i hi, idToTeam_none ts2 i
      (fun hmem => hi (mem_idsOf_perm ts1 ts2 h i hmem))]

theorem presentId_perm (ts1 ts2 : List TeamSection) (h : ts1.Perm ts2)
    (hnd : (idsOf ts1).Nodup) (d : String) : presentId ts1 d = presentId ts2 d := by
  unfold presentId
  rw [idToTeam_perm ts1 ts2 h hnd d]

theorem vdepsOf_perm (ts1 ts2 : List TeamSection) (h : ts1.Perm ts2)
    (hnd : (idsOf ts1).Nodup) (i : String) : vdepsOf ts1 i = vdepsOf ts2 i := by
  unfold vdepsOf depsOfId
  rw [idToTeam_perm ts1 ts2 h hnd i]
  exact List.filter_congr (fun d _ => presentId_perm ts1 ts2 h hnd d)

theorem buildInDegree_perm (ts1 ts2 : List TeamSection) (h : ts1.Perm ts2)
    (hnd : (idsOf ts1).Nodup) (v : String) :
    buildInDegree ts1 v = buildInDegree ts2 v := by
  have hnd2 : (idsOf ts2).Nodup := idsOf_nodup_perm ts1 ts2 h hnd
  by_cases hv : v ∈ idsOf ts1
  · rcases mem_idsOf ts1 v hv with ⟨t, ht, rfl⟩
    rw [buildInDegree_of_mem ts1 hnd t ht,
      buildInDegree_of_mem ts2 hnd2 t (h.mem_iff.1 ht),
      vdepsOf_perm ts1 ts2 h hnd t.id]
  · rw [buildInDegree_not_mem ts1 v hv, buildInDegree_not_mem ts2 v
      (fun hmem => hv (mem_idsOf_perm ts1 ts2 h v hmem))]

theorem buildDownstream_perm (ts1 ts2 : List TeamSection) (h : ts1.Perm ts2)
    (hnd : (idsOf ts1).Nodup) (u : String) :
    (buildDownstream ts1 u).Perm (buildDownstream ts2 u) := by
  have hnd2 : (idsOf ts2).Nodup := idsOf_nodup_perm ts1 ts2 h hnd
  rw [List.perm_iff_count]
  intro v
  by_cases hv : v ∈ idsOf ts1
  · rcases mem_idsOf ts1 v hv with ⟨t, ht, rfl⟩
    rw [count_buildDownstream ts1 hnd t ht u,
      count_buildDownstream ts2 hnd2 t (h.mem_iff.1 ht) u,
      vdepsOf_perm ts1 ts2 h hnd t.id]
  · have h1 : v ∉ buildDownstream ts1 u :=
      fun hm => hv (mem_buildDownstream ts1 u v hm)
    have h2 : v ∉ buildDownstream ts2 u :=
      fun hm => hv (mem_idsOf_perm ts1 ts2 h v (mem_buildDownstream ts2 u v hm))
    rw [List.count_eq_zero.2 h1, List.count_eq_zero.2 h2]

theorem crNew_perm (ds1 ds2 : List String) (hp : ds1.Perm ds2) (m : String → Int) :
    (crNew ds1 m).Perm (crNew ds2 m) := by
  refine (List.perm_ext_iff_of_nodup (crNew_nodup ds1 m) (crNew_nodup ds2 m)).2 ?_
  intro v
  rw [crNew_mem ds1 m v, crNew_mem ds2 m v, hp.count_eq v]

theorem kahnLoop_congr (ts1 ts2 : List TeamSection) (h : ts1.Perm ts2)
    (hnd : (idsOf ts1).Nodup) :
    ∀ (fuel : Nat) (queue : List String) (inDeg : String → Int)
      (processed : List String) (sorted : List TeamSection),
      kahnLoop (idToTeam ts1) (buildDownstream ts1) fuel queue inDeg processed sorted
        = kahnLoop (idToTeam ts2) (buildDownstream ts2) fuel queue inDeg processed
          sorted := by
  intro fuel
  induction fuel with
  | zero => intro queue inDeg processed sorted; rfl
  | succ k ih =>
      intro queue inDeg processed sorted
      cases queue with
      | nil => rfl
      | cons u rest =>
          rw [kahnLoop, kahnLoop]
          split
          · exact ih rest inDeg processed sorted
          · have hsorted2 : sorted ++ ((idToTeam ts1 u).map (fun t => [t])).getD []
                = sorted ++ ((idToTeam ts2 u).map (fun t => [t])).getD [] := by
              rw [idToTeam_perm ts1 ts2 h hnd u]
            have hfst : (collectReady (buildDownstream ts1 u) inDeg).1
                = (collectReady (buildDownstream ts2 u) inDeg).1 := by
              funext v
              rw [collectReady_fst, collectReady_fst,
                (buildDownstream_perm ts1 ts2 h hnd u).count_eq v]
            have hsnd : sortStrings (collectReady (buildDownstream ts1 u) inDeg).2
                = sortStrings (collectReady (buildDownstream ts2 u) inDeg).2 := by
              rw [collectReady_snd, collectReady_snd]
              exact sortStrings_eq_of_perm
                (crNew_perm _ _ (buildDownstream_perm ts1 ts2 h hnd u) inDeg)
            show kahnLoop (idToTeam ts1) (buildDownstream ts1) k
                (rest ++ sortStrings (collectReady (buildDownstream ts1 u) inDeg).2)
                (collectReady (buildDownstream ts1 u) inDeg).1 (processed ++ [u])
                (sorted ++ ((idToTeam ts1 u).map (fun t => [t])).getD [])
              = kahnLoop (idToTeam ts2) (buildDownstream ts2) k
                (rest ++ sortStrings (collectReady (buildDownstream ts2 u) inDeg).2)
                (collectReady (buildDownstream ts2 u) inDeg).1 (processed ++ [u])
                (sorted ++ ((idToTeam ts2 u).map (fun t => [t])).getD [])
            rw [hsnd, hfst, hsorted2]
            exact ih _ _ _ _

theorem kahnRun_congr (ts1 ts2 : List TeamSection) (h : ts1.Perm ts2)
    (hnd : (idsOf ts1).Nodup) : kahnRun ts1 = kahnRun ts2 := by
  have hq : queue0Of ts1 = queue0Of ts2 := by
    unfold queue0Of
    apply sortStrings_eq_of_perm
    have hfe : ts2.filter (fun t => decide (buildInDegree ts1 t.id = 0))
        = ts2.filter (fun t => decide (buildInDegree ts2 t.id = 0)) :=
      List.filter_congr (fun t _ => by rw [buildInDegree_perm ts1 ts2 h hnd t.id])
    rw [← hfe]
    exact (h.filter _).map _
  have hte : totalEdges ts1 = totalEdges ts2 := by
    unfold totalEdges
    rw [(h.map (fun t => (validDeps (presentId ts1) t).length)).sum_eq]
    refine congrArg List.sum (List.map_congr_left ?_)
    intro t _
    unfold validDeps
    rw [List.filter_congr (fun d _ => presentId_perm ts1 ts2 h hnd d)]
  have hdeg : buildInDegree ts1 = buildInDegree ts2 :=
    funext (fun v => buildInDegree_perm ts1 ts2 h hnd v)
  unfold kahnRun
  rw [hq, hte, hdeg, kahnLoop_congr ts1 ts2 h hnd]

/-! ### Topological order of the output on acyclic inputs -/

theorem sortByDAG_topo (ts : List TeamSection) (hnd : (idsOf ts).Nodup)
    (hac : acyclicTeams ts = true) :
    ∀ l1 t l2, sortByDAGTeams ts = l1 ++ t :: l2 →
      ∀ d ∈ t.dependsOn, presentId ts d = true → ∃ t2 ∈ l1, t2.id = d := by
  by_cases hlen : ts.length ≤ 1
  · cases ts with
    | nil =>
        intro l1 t l2 hsplit
        have heq : sortByDAGTeams ([] : List TeamSection) = [] := rfl
        rw [heq] at hsplit
        rcases List.append_eq_nil.1 hsplit.symm with ⟨_, h2⟩
        cases h2
    | cons t0 rest =>
        cases rest with
        | nil =>
            intro l1 t l2 hsplit d hd hpres
            exfalso
            have heq : sortByDAGTeams [t0] = [t0] := rfl
            rw [heq] at hsplit
            have hdid : d ∈ idsOf [t0] := (presentId_iff [t0] d).1 hpres
            have hdt0 : d = t0.id := by
              simpa [idsOf] using hdid
            have hS : [t0.id] ∈ (idsOf [t0]).sublists :=
              List.mem_sublists.2 (List.Sublist.refl _)
            have hall := List.all_eq_true.1 hac _ hS
            rw [Bool.or_eq_true] at hall
            rcases hall with hemp | hany
            · simp at hemp
            · rw [List.any_eq_true] at hany
              obtain ⟨i, hi, halli⟩ := hany
              have hit0 : i = t0.id := List.mem_singleton.1 hi
              subst hit0
              rw [List.all_eq_true] at halli
              -- which team did this branch split? find t = t0 and derive the
              -- self-dependency contradiction
              have hvd : vdepsOf [t0] t0.id = t0.dependsOn.filter (presentId [t0]) :=
                vdepsOf_eq [t0] (by simp [idsOf]) t0 (List.mem_singleton.2 rfl)
              have htt0 : t = t0 := by
                cases l1 with
                | nil =>
                    simp only [List.nil_append] at hsplit
                    exact ((List.cons_eq_cons.1 hsplit).1).symm
                | cons x xs =>
                    rw [List.cons_append] at hsplit
                    have h2 := (List.cons_eq_cons.1 hsplit).2
                    rcases List.append_eq_nil.1 h2.symm with ⟨_, h3⟩
                    cases h3
              have hdv : d ∈ vdepsOf [t0] t0.id := by
                rw [hvd]
                refine List.mem_filter.2 ⟨?_, hpres⟩
                rw [← htt0]
                exact hd
              have hbad := halli d hdv
              rw [hdt0] at hbad
              rw [decide_eq_true (List.mem_singleton.2 rfl)] at hbad
              cases hbad
        | cons t1 rest2 =>
            exfalso
            simp only [List.length_cons] at hlen
            omega
  · intro l1 t l2 hsplit d hd hpres
    have hout : sortByDAGTeams ts
        = (kahnRun ts).processed.filterMap (idToTeam ts) := by
      rw [sortByDAGTeams_eq ts hlen, kahnRun_tail_nil ts hnd hac, List.append_nil]
      exact (kahnRun_inv ts hnd).2.2.1
    rw [hout] at hsplit
    have hpsub := (kahnRun_inv ts hnd).1
    obtain ⟨p1, i, p2, hP, hit, hl1, hp1sub⟩ :=
      filterMap_split ts (kahnRun ts).processed l1 l2 t hpsub hsplit
    have hH8 := (kahnRun_inv ts hnd).2.2.2.2.2
    have hdvd : d ∈ vdepsOf ts i := by
      show d ∈ (depsOfId ts i).filter (fun d2 => presentId ts d2)
      have hdeps : depsOfId ts i = t.dependsOn := by
        unfold depsOfId
        rw [hit]
      rw [hdeps]
      exact List.mem_filter.2 ⟨hd, hpres⟩
    have hdp1 : d ∈ p1 := hH8 p1 i p2 hP d hdvd
    have hdids : d ∈ idsOf ts := hp1sub d hdp1
    obtain ⟨t2, ht2⟩ := Option.isSome_iff_exists.1 (idToTeam_isSome ts d hdids)
    refine ⟨t2, ?_, idToTeam_id ts d t2 ht2⟩
    rw [hl1]
    exact List.mem_filterMap.2 ⟨d, hdp1, ht2⟩

/-! ### The spec's prescribed emission order (spec-side model) -/

/-- Spec-side model of §4.2 step 3, taken at its word: at every step remove
the lexicographically smallest ready id, decrement its dependents and add
any newly ready ids to the ready set.  This models the SPEC's sentence, not
the source, and exists to compare the two. -/
def specEmissionLoop (ds : String → List String) :
    Nat → List String → (String → Int) → List String
  | 0, _, _ => []
  | fuel + 1, ready, inDeg =>
      match sortStrings ready with
      | [] => []
      | u :: rest =>
          u :: specEmissionLoop ds fuel
            (rest ++ (collectReady (ds u) inDeg).2) (collectReady (ds u) inDeg).1

/-- The id emission order the spec's step 2–3 prescribe for an input. -/
def specEmissionOrder (ts : List TeamSection) : List String :=
  specEmissionLoop (buildDownstream ts) (ts.length + totalEdges ts)
    ((ts.filter (fun t => buildInDegree ts t.id = 0)).map (fun t => t.id))
    (buildInDegree ts)

/-- Two distinct teams sharing one id, for the duplicate-id counterexamples. -/
def exDupA : TeamSection := mkTeam "a" []

def exDupB : TeamSection := { mkTeam "a" [] with verdict := "second copy" }

/-! ### Claims C1, C5, C6, C10 -/

/-- C1 counterexample: on the acyclic, distinct-id input [b, z, a->b] the
source emits [b, z, a] (FIFO queue of sorted batches), while the spec rule
"remove the lexicographically smallest ready id at every step" prescribes
[b, a, z]: after b is processed the ready set is {z, a} and a is smaller. -/
theorem c1_counterexample :
    (sortByDAGTeams [mkTeam "b" [], mkTeam "z" [], mkTeam "a" ["b"]]).map
        (fun t => t.id) = ["b", "z", "a"] ∧
    specEmissionOrder [mkTeam "b" [], mkTeam "z" [], mkTeam "a" ["b"]]
      = ["b", "a", "z"] ∧
    acyclicTeams [mkTeam "b" [], mkTeam "z" [], mkTeam "a" ["b"]] = true ∧
    (idsOf [mkTeam "b" [], mkTeam "z" [], mkTeam "a" ["b"]]).Nodup := by
  decide

/-- C1 (amended): for every acyclic input with pairwise-distinct ids,
SortByDAG puts every section after sections carrying each of its existing
dependency ids; the pm/qa/release scenario holds.  (The per-step
lexicographically-smallest-ready rule does not hold: only the initial queue
and each newly-ready batch are sorted, and the queue is consumed FIFO.) -/
theorem c1_topological_order (ts : List TeamSection)
    (hnd : (idsOf ts).Nodup) (hac : acyclicTeams ts = true) :
    (∀ l1 t l2, sortByDAGTeams ts = l1 ++ t :: l2 →
      ∀ d ∈ t.dependsOn, presentId ts d = true → ∃ t2 ∈ l1, t2.id = d) ∧
    sortByDAGTeams [mkTeam "release" ["qa"], mkTeam "qa" ["pm"], mkTeam "pm" []]
      = [mkTeam "pm" [], mkTeam "qa" ["pm"], mkTeam "release" ["qa"]] :=
  ⟨sortByDAG_topo ts hnd hac, by decide⟩

/-- C1 witness: the topological-order conclusion at the spec's scenario
input — release (after qa) is preceded by a section with id qa. -/
theorem c1_topological_order_witness :
    (idsOf [mkTeam "release" ["qa"], mkTeam "qa" ["pm"], mkTeam "pm" []]).Nodup ∧
    acyclicTeams [mkTeam "release" ["qa"], mkTeam "qa" ["pm"], mkTeam "pm" []]
      = true ∧
    (∃ t2 ∈ [mkTeam "pm" [], mkTeam "qa" ["pm"]], t2.id = "qa") :=
  ⟨by decide, by decide,
    (c1_topological_order
        [mkTeam "release" ["qa"], mkTeam "qa" ["pm"], mkTeam "pm" []]
        (by decide) (by decide)).1
      [mkTeam "pm" [], mkTeam "qa" ["pm"]] (mkTeam "release" ["qa"]) []
      (by decide) "qa" (by decide) (by decide)⟩

/-- C5 counterexample: two distinct sections sharing the id "a" — one of
them is dropped (the output has a single section), so SortByDAG does not
keep every section for every input. -/
theorem c5_counterexample :
    sortByDAGTeams [exDupA, exDupB] = [exDupB] ∧
    [exDupA, exDupB].length = 2 ∧
    exDupA ∉ sortByDAGTeams [exDupA, exDupB] := by
  decide

/-- C5 (amended): for inputs with pairwise-distinct ids SortByDAG never
drops a section (the output is a permutation of the input), the sections the
Kahn phase never processed — the cycle participants — are appended after the
emitted prefix in original input relative order, and the two-section mutual
dependency renders both sections in original input order. -/
theorem c5_cycle_tolerance (ts : List TeamSection) (hnd : (idsOf ts).Nodup) :
    (sortByDAGTeams ts).Perm ts ∧
    (¬ ts.length ≤ 1 → sortByDAGTeams ts
        = (kahnRun ts).sorted
          ++ ts.filter (fun t => !(decide (t.id ∈ (kahnRun ts).processed)))) ∧
    sortByDAGTeams [mkTeam "A" ["B"], mkTeam "B" ["A"]]
      = [mkTeam "A" ["B"], mkTeam "B" ["A"]] :=
  ⟨sortByDAG_perm ts hnd, fun h => sortByDAGTeams_eq ts h, by decide⟩

/-- C5 witness: the never-drops conclusion at the mutual-dependency input. -/
theorem c5_cycle_tolerance_witness :
    (idsOf [mkTeam "A" ["B"], mkTeam "B" ["A"]]).Nodup ∧
    (sortByDAGTeams [mkTeam "A" ["B"], mkTeam "B" ["A"]]).Perm
      [mkTeam "A" ["B"], mkTeam "B" ["A"]] :=
  ⟨by decide,
    (c5_cycle_tolerance [mkTeam "A" ["B"], mkTeam "B" ["A"]] (by decide)).1⟩

/-- C6 counterexample: with a duplicated id, two inputs that are
permutations of each other (and acyclic, so the cycle proviso cannot apply)
produce entirely different outputs — each run keeps only the team its own
input order put last into the id map. -/
theorem c6_counterexample :
    [exDupA, exDupB].Perm [exDupB, exDupA] ∧
    acyclicTeams [exDupA, exDupB] = true ∧
    sortByDAGTeams [exDupA, exDupB] = [exDupB] ∧
    sortByDAGTeams [exDupB, exDupA] = [exDupA] ∧
    sortByDAGTeams [exDupA, exDupB] ≠ sortByDAGTeams [exDupB, exDupA] :=
  ⟨List.Perm.swap exDupB exDupA [], by decide, by decide, by decide, by decide⟩

/-- C6 (amended): for inputs with pairwise-distinct ids, permuted inputs
drive identical Kahn runs (same emitted prefix, same processed set), the
outputs are permutations of each other and differ only in that each lists
the unprocessed (cycle) suffix in its own input's original order, and
SortByDAG is idempotent. -/
theorem c6_determinism (ts1 ts2 : List TeamSection) (h : ts1.Perm ts2)
    (hnd : (idsOf ts1).Nodup) :
    kahnRun ts1 = kahnRun ts2 ∧
    (sortByDAGTeams ts1).Perm (sortByDAGTeams ts2) ∧
    (¬ ts1.length ≤ 1 →
      sortByDAGTeams ts1 = (kahnRun ts1).sorted
          ++ ts1.filter (fun t => !(decide (t.id ∈ (kahnRun ts1).processed))) ∧
      sortByDAGTeams ts2 = (kahnRun ts1).sorted
          ++ ts2.filter (fun t => !(decide (t.id ∈ (kahnRun ts1).processed)))) ∧
    sortByDAGTeams (sortByDAGTeams ts1) = sortByDAGTeams ts1 := by
  have hrun := kahnRun_congr ts1 ts2 h hnd
  have hnd2 : (idsOf ts2).Nodup := idsOf_nodup_perm ts1 ts2 h hnd
  have hperm1 := sortByDAG_perm ts1 hnd
  refine ⟨hrun, (hperm1.trans h).trans (sortByDAG_perm ts2 hnd2).symm, ?_, ?_⟩
  · intro hlen
    have hlen2 : ¬ ts2.length ≤ 1 := by
      rw [← h.length_eq]
      exact hlen
    refine ⟨sortByDAGTeams_eq ts1 hlen, ?_⟩
    rw [hrun]
    exact sortByDAGTeams_eq ts2 hlen2
  · have hndout : (idsOf (sortByDAGTeams ts1)).Nodup :=
      idsOf_nodup_perm ts1 (sortByDAGTeams ts1) hperm1.symm hnd
    exact sortByDAG_idem ts1 hnd
      (kahnRun_congr (sortByDAGTeams ts1) ts1 hperm1 hndout)

/-- C6 witness: idempotence at the mutual-dependency input, with the
permuted-input hypothesis discharged by an explicit swap. -/
theorem c6_determinism_witness :
    ([mkTeam "A" ["B"], mkTeam "B" ["A"]].Perm
      [mkTeam "B" ["A"], mkTeam "A" ["B"]]) ∧
    (idsOf [mkTeam "A" ["B"], mkTeam "B" ["A"]]).Nodup ∧
    sortByDAGTeams (sortByDAGTeams [mkTeam "A" ["B"], mkTeam "B" ["A"]])
      = sortByDAGTeams [mkTeam "A" ["B"], mkTeam "B" ["A"]] :=
  ⟨List.Perm.swap _ _ _, by decide,
    (c6_determinism [mkTeam "A" ["B"], mkTeam "B" ["A"]]
      [mkTeam "B" ["A"], mkTeam "A" ["B"]]
      (List.Perm.swap (mkTeam "B" ["A"]) (mkTeam "A" ["B"]) [])
      (by decide)).2.2.2⟩

/-- C10: for a report whose sections have pairwise-distinct ids, SortByDAG
only permutes the Teams slice (each section value kept as-is) and leaves
every other field of the report unchanged. -/
theorem c10_sortbydag_frame (r : TeamReport) (hnd : (idsOf r.teams).Nodup) :
    (r.SortByDAG.teams.Perm r.teams) ∧
    r.SortByDAG.schema = r.schema ∧ r.SortByDAG.title = r.title ∧
    r.SortByDAG.project = r.project ∧ r.SortByDAG.version = r.version ∧
    r.SortByDAG.target = r.target ∧ r.SortByDAG.phase = r.phase ∧
    r.SortByDAG.tags = r.tags ∧ r.SortByDAG.summaryBlocks = r.summaryBlocks ∧
    r.SortByDAG.footerBlocks = r.footerBlocks ∧ r.SortByDAG.summary = r.summary ∧
    r.SortByDAG.conclusion = r.conclusion ∧ r.SortByDAG.status = r.status ∧
    r.SortByDAG.generatedAt = r.generatedAt ∧
    r.SortByDAG.generatedBy = r.generatedBy :=
  ⟨sortByDAG_perm r.teams hnd, rfl, rfl, rfl, rfl, rfl, rfl, rfl, rfl, rfl,
    rfl, rfl, rfl, rfl, rfl⟩

/-- C10 witness: the frame conclusion at the concrete scenario report. -/
theorem c10_sortbydag_frame_witness :
    (idsOf exScenarioReport.teams).Nodup ∧
    exScenarioReport.SortByDAG.teams.Perm exScenarioReport.teams :=
  ⟨by decide, (c10_sortbydag_frame exScenarioReport (by decide)).1⟩

/-! ### Claim C3 (amended): the narrative task table -/

theorem strIn_teamMD_tasks (t : TeamSection) (ht : t.tasks ≠ []) (pat : String)
    (h : StrIn pat
      ("\n\n#### Tasks\n\n| Task | Status | Detail |\n| --- | --- | --- |"
        ++ strConcat (t.tasks.map (fun task =>
            "\n| " ++ task.id ++ " | " ++ statusText task.status ++ " | "
              ++ task.detail ++ " |")))) :
    StrIn pat (narrativeTeamMD t) := by
  unfold narrativeTeamMD
  rw [if_pos ht]
  exact strIn_right _ _ _ (strIn_left _ _ _ h)

theorem strIn_narrativeMD_team (r : TeamReport) (t : TeamSection)
    (ht : t ∈ r.teams) (pat : String) (h : StrIn pat (narrativeTeamMD t)) :
    StrIn pat (narrativeMD r) := by
  unfold narrativeMD
  refine strIn_right _ _ _ (strIn_right _ _ _ (strIn_right _ _ _
    (strIn_left _ _ _ ?_)))
  exact strIn_concat_of_mem pat (narrativeTeamMD t) _
    (List.mem_map_of_mem narrativeTeamMD ht) h

/-- C3 (amended): for every report with pairwise-distinct section ids, each
section with a nonempty task list contributes the three-column header
"| Task | Status | Detail |" to the narrative output, and every task
contributes the row "| id | status-word | detail |" — there is no Severity
column and the severity label is not rendered. -/
theorem c3_narrative_table (r : TeamReport) (hnd : (idsOf r.teams).Nodup) :
    ∀ t ∈ r.teams, t.tasks ≠ [] →
      StrIn "| Task | Status | Detail |" (renderNarrative r) ∧
      ∀ task ∈ t.tasks,
        StrIn ("\n| " ++ task.id ++ " | " ++ statusText task.status ++ " | "
          ++ task.detail ++ " |") (renderNarrative r) := by
  intro t ht htasks
  have hmem : t ∈ (TeamReport.SortByDAG r).teams := by
    show t ∈ sortByDAGTeams r.teams
    exact (sortByDAG_perm r.teams hnd).mem_iff.2 ht
  constructor
  · show StrIn _ (narrativeMD r.SortByDAG)
    apply strIn_narrativeMD_team r.SortByDAG t hmem
    apply strIn_teamMD_tasks t htasks
    apply strIn_right
    rw [← strContains_iff]
    decide
  · intro task htask
    show StrIn _ (narrativeMD r.SortByDAG)
    apply strIn_narrativeMD_team r.SortByDAG t hmem
    apply strIn_teamMD_tasks t htasks
    apply strIn_left
    exact strIn_concat_of_mem _ _ _
      (List.mem_map_of_mem (fun task => "\n| " ++ task.id ++ " | "
        ++ statusText task.status ++ " | " ++ task.detail ++ " |") htask)
      (strIn_refl _)

/-- C3 witness: the header containment at the concrete scenario report's
security section. -/
theorem c3_narrative_table_witness :
    (idsOf exScenarioReport.teams).Nodup ∧
    StrIn "| Task | Status | Detail |" (renderNarrative exScenarioReport) :=
  ⟨by decide,
    (c3_narrative_table exScenarioReport (by decide) exSecurityTeam (by decide)
      (by decide)).1⟩

end MultiAgentSpec
